import Mathlib

/-!
Verification of the circular-buffer deque of `ext-ds`.

The data model (`ds_deque_t`) and the macros `DS_DEQUE_MIN_CAPACITY`,
`DS_DEQUE_SIZE`, `DS_DEQUE_IS_EMPTY` and `DS_DEQUE_FOREACH` are embedded from
`src/src/ds/ds_deque.h`.  The operations themselves are only declared in that
header; their implementation file (`ds_deque.c`) is not part of the available
sources, so every operation below is modelled from the specification's
description of it and is marked as such in its doc comment.
-/

namespace ExtDs

/-- Abstract error kinds of the deque (spec section 7). -/
inductive DsError where
  | emptyContainer
  | indexOutOfBounds
deriving DecidableEq

/-- The deque record, following `ds_deque_t` in `src/src/ds/ds_deque.h`: a
buffer of `capacity` element slots (modelled as a total function from slot
index to element), together with `head`, `tail` and `size`. -/
structure DsDeque (α : Type) where
  buffer : Nat → α
  capacity : Nat
  head : Nat
  tail : Nat
  size : Nat

/-- The `DS_DEQUE_MIN_CAPACITY` constant of `src/src/ds/ds_deque.h`
("Must be a power of 2"). -/
def DS_DEQUE_MIN_CAPACITY : Nat := 8

/-- The `DS_DEQUE_SIZE` macro of `src/src/ds/ds_deque.h`. -/
def DS_DEQUE_SIZE (d : DsDeque α) : Nat := d.size

/-- The `DS_DEQUE_IS_EMPTY` macro of `src/src/ds/ds_deque.h`:
`((d)->size == 0)`. -/
def DS_DEQUE_IS_EMPTY (d : DsDeque α) : Bool := d.size == 0

/-- Loop of the `DS_DEQUE_FOREACH` macro of `src/src/ds/ds_deque.h`: starting
from a cursor at `head`, while the cursor differs from the snapshot of `tail`,
visit the buffer slot under the cursor and advance it by `(h + 1) & mask`.
The `fuel` argument makes the loop a total function; `capacity` steps are
enough for every state on which the macro itself terminates. -/
def foreachAux (buffer : Nat → α) (tail mask : Nat) : Nat → Nat → List α
  | 0, _ => []
  | fuel + 1, h =>
    if h = tail then [] else buffer h :: foreachAux buffer tail mask fuel ((h + 1) &&& mask)

/-- The elements visited by `DS_DEQUE_FOREACH` over a deque, in visit order. -/
def dsDequeForeach (d : DsDeque α) : List α :=
  foreachAux d.buffer d.tail (d.capacity - 1) d.capacity d.head

/-- The logical contents of the deque: logical index `i` (`0 ≤ i < size`) is
read from physical slot `(head + i) & (capacity - 1)` (spec section 3). -/
def toList (d : DsDeque α) : List α :=
  (List.range d.size).map fun i => d.buffer ((d.head + i) &&& (d.capacity - 1))

/-- Fuel-driven base-2 logarithm, used to state the power-of-two invariant in
a decidable form. -/
def log2fuel : Nat → Nat → Nat
  | 0, _ => 0
  | f + 1, n => if n ≤ 1 then 0 else log2fuel f (n / 2) + 1

/-- Base-2 logarithm of `n` (exact on powers of two). -/
def nlog2 (n : Nat) : Nat := log2fuel n n

/-- Structural invariant of an allocated deque (spec section 3): the capacity
is a power of two and at least `DS_DEQUE_MIN_CAPACITY`, `head` and `tail` are
within the buffer, `size` is at most the capacity, and `tail` is one past the
logical last element under modulo-capacity arithmetic. -/
abbrev WF (d : DsDeque α) : Prop :=
  d.capacity = 2 ^ nlog2 d.capacity ∧
  DS_DEQUE_MIN_CAPACITY ≤ d.capacity ∧
  d.head < d.capacity ∧
  d.tail < d.capacity ∧
  d.size ≤ d.capacity ∧
  d.tail = (d.head + d.size) % d.capacity

/-- Modelled from the spec: capacity selection at construction (spec section 3,
Lifecycle; the constructors `ds_deque` / `ds_deque_ex` / `ds_deque_from_buffer`
are declared in `src/src/ds/ds_deque.h` but implemented in the missing
`ds_deque.c`): "capacity rounded up to the next power of two ≥ size, minimum
`DS_DEQUE_MIN_CAPACITY`".  Doubling search, fuel-bounded for totality. -/
def grow2 : Nat → Nat → Nat → Nat
  | 0, c, _ => c
  | f + 1, c, n => if n ≤ c then c else grow2 f (2 * c) n

/-- The smallest power of two that is at least `n` and at least
`DS_DEQUE_MIN_CAPACITY`. -/
def capacityFor (n : Nat) : Nat := grow2 n DS_DEQUE_MIN_CAPACITY n

/-- Modelled from the spec: construction of a deque from an ordered sequence
of elements (spec section 3, Lifecycle; `ds_deque_from_buffer` is declared in
`src/src/ds/ds_deque.h`, its implementation is missing): elements copied in
order, `head = 0`, `tail = size` under modulo-capacity arithmetic, capacity
per `capacityFor`. -/
def ds_deque_from_array [Inhabited α] (l : List α) : DsDeque α :=
  { buffer := fun s => l.getD s default
    capacity := capacityFor l.length
    head := 0
    tail := l.length % capacityFor l.length
    size := l.length }

/-- Modelled from the spec: `ds_deque_to_array` (spec section 4.2, declared in
`src/src/ds/ds_deque.h`, implementation missing): "produces a linear ordered
sequence of the logical contents head→tail"; it does not mutate the deque. -/
def ds_deque_to_array (d : DsDeque α) : List α := toList d

/-- Modelled from the spec: capacity growth (spec section 4.1, part of the
missing `ds_deque.c`): "Growth doubles capacity …; on growth, elements are
copied into a fresh buffer starting at physical index 0 preserving logical
order". -/
def ds_deque_grow (d : DsDeque α) : DsDeque α :=
  { buffer := fun s => d.buffer ((d.head + s) &&& (d.capacity - 1))
    capacity := 2 * d.capacity
    head := 0
    tail := d.size
    size := d.size }

/-- Tail-end write step shared by `ds_deque_push`: write the value at `tail`,
advance `tail` by `(tail + 1) & mask`, increment `size`. -/
def pushAux (d : DsDeque α) (v : α) : DsDeque α :=
  { buffer := fun s => if s = d.tail then v else d.buffer s
    capacity := d.capacity
    head := d.head
    tail := (d.tail + 1) &&& (d.capacity - 1)
    size := d.size + 1 }

/-- Modelled from the spec: `ds_deque_push` (spec section 4.1, declared in
`src/src/ds/ds_deque.h`, implementation missing): appends at the logical tail,
growing first if full. -/
def ds_deque_push (d : DsDeque α) (v : α) : DsDeque α :=
  pushAux (if d.size = d.capacity then ds_deque_grow d else d) v

/-- Head-end write step shared by `ds_deque_unshift`: decrement `head` modulo
capacity (wrapping to `capacity - 1` at 0), write the value at the new head,
increment `size`. -/
def unshiftAux (d : DsDeque α) (v : α) : DsDeque α :=
  { buffer := fun s => if s = (d.head + d.capacity - 1) &&& (d.capacity - 1) then v else d.buffer s
    capacity := d.capacity
    head := (d.head + d.capacity - 1) &&& (d.capacity - 1)
    tail := d.tail
    size := d.size + 1 }

/-- Modelled from the spec: `ds_deque_unshift` (spec section 4.1, declared as
`ds_deque_unshift_va` in `src/src/ds/ds_deque.h`, implementation missing):
prepends at the logical head, growing first if full. -/
def ds_deque_unshift (d : DsDeque α) (v : α) : DsDeque α :=
  unshiftAux (if d.size = d.capacity then ds_deque_grow d else d) v

/-- Modelled from the spec: `ds_deque_pop` (spec section 4.1, declared in
`src/src/ds/ds_deque.h`, implementation missing): fails with `EmptyContainer`
if `size == 0`; otherwise moves `tail` back one slot modulo capacity,
decrements `size` and returns the removed element. -/
def ds_deque_pop (d : DsDeque α) : Except DsError (α × DsDeque α) :=
  if d.size = 0 then .error .emptyContainer
  else
    .ok (d.buffer ((d.tail + d.capacity - 1) &&& (d.capacity - 1)),
      { buffer := d.buffer
        capacity := d.capacity
        head := d.head
        tail := (d.tail + d.capacity - 1) &&& (d.capacity - 1)
        size := d.size - 1 })

/-- Modelled from the spec: `ds_deque_shift` (spec section 4.1, declared in
`src/src/ds/ds_deque.h`, implementation missing): fails with `EmptyContainer`
if empty; returns the value at `head`, advances `head` modulo capacity and
decrements `size`. -/
def ds_deque_shift (d : DsDeque α) : Except DsError (α × DsDeque α) :=
  if d.size = 0 then .error .emptyContainer
  else
    .ok (d.buffer d.head,
      { buffer := d.buffer
        capacity := d.capacity
        head := (d.head + 1) &&& (d.capacity - 1)
        tail := d.tail
        size := d.size - 1 })

/-- Modelled from the spec: `ds_deque_get` (spec section 4.1, declared in
`src/src/ds/ds_deque.h`, implementation missing): fails with
`IndexOutOfBounds` unless `0 ≤ index < size`, otherwise reads the slot
`(head + index) & mask`. -/
def ds_deque_get (d : DsDeque α) (index : Int) : Except DsError α :=
  if index < 0 ∨ (d.size : Int) ≤ index then .error .indexOutOfBounds
  else .ok (d.buffer ((d.head + index.toNat) &&& (d.capacity - 1)))

/-- Modelled from the spec: `ds_deque_set` (spec section 4.1, declared in
`src/src/ds/ds_deque.h`, implementation missing): same bounds as `get`;
overwrites the addressed slot.  A failing call produces only the error value,
so the deque is left unchanged. -/
def ds_deque_set (d : DsDeque α) (index : Int) (v : α) : Except DsError (DsDeque α) :=
  if index < 0 ∨ (d.size : Int) ≤ index then .error .indexOutOfBounds
  else .ok { d with
    buffer := fun s => if s = (d.head + index.toNat) &&& (d.capacity - 1) then v else d.buffer s }

/-- Modelled from the spec: `ds_deque_get_first` (spec section 4.1, declared
in `src/src/ds/ds_deque.h`, implementation missing): equivalent to `get(0)`;
fails with `EmptyContainer` when empty. -/
def ds_deque_get_first (d : DsDeque α) : Except DsError α :=
  if d.size = 0 then .error .emptyContainer
  else .ok (d.buffer ((d.head + 0) &&& (d.capacity - 1)))

/-- Modelled from the spec: `ds_deque_get_last` (spec section 4.1, declared in
`src/src/ds/ds_deque.h`, implementation missing): equivalent to
`get(size - 1)`; fails with `EmptyContainer` when empty. -/
def ds_deque_get_last (d : DsDeque α) : Except DsError α :=
  if d.size = 0 then .error .emptyContainer
  else .ok (d.buffer ((d.head + (d.size - 1)) &&& (d.capacity - 1)))

/-- Logical offset of physical slot `s` relative to a head position `h` in a
buffer of capacity `c`: the inverse of the addressing map `i ↦ (h + i) & (c-1)`
for slots inside the buffer. -/
def slotOffset (c h s : Nat) : Nat := (s + c - h) % c

/-- Modelled from the spec: `ds_deque_insert` (spec section 4.1, declared as
`ds_deque_insert_va` in `src/src/ds/ds_deque.h`, implementation missing):
valid for `0 ≤ index ≤ size` (`index == size` behaving like push), fails with
`IndexOutOfBounds` outside that range.  Grows first if full, then opens a gap
at the logical index by shifting the shorter side — the elements before the
index move one slot toward the head, or the elements after it move one slot
toward the tail — and writes the value into the gap.  The shifted buffer is
described slot-wise: each destination slot of the shift takes the element of
its neighbouring slot, and every other slot is untouched. -/
def ds_deque_insert (d : DsDeque α) (index : Int) (v : α) : Except DsError (DsDeque α) :=
  if index < 0 ∨ (d.size : Int) < index then .error .indexOutOfBounds
  else
    let d := if d.size = d.capacity then ds_deque_grow d else d
    let i := index.toNat
    let c := d.capacity
    if 2 * i ≤ d.size then
      let h := (d.head + c - 1) &&& (c - 1)
      .ok { buffer := fun s =>
              if s < c ∧ slotOffset c h s < i then d.buffer ((s + 1) % c)
              else if s < c ∧ slotOffset c h s = i then v
              else d.buffer s
            capacity := c
            head := h
            tail := d.tail
            size := d.size + 1 }
    else
      .ok { buffer := fun s =>
              if s < c ∧ i < slotOffset c d.head s ∧ slotOffset c d.head s ≤ d.size then
                d.buffer ((s + c - 1) % c)
              else if s < c ∧ slotOffset c d.head s = i then v
              else d.buffer s
            capacity := c
            head := d.head
            tail := (d.tail + 1) &&& (c - 1)
            size := d.size + 1 }

/-- Modelled from the spec: `ds_deque_remove` (spec section 4.1, declared in
`src/src/ds/ds_deque.h`, implementation missing): valid for
`0 ≤ index < size`, fails with `IndexOutOfBounds` otherwise; returns the
removed value and closes the gap by shifting the shorter side — the elements
before the index move one slot toward the tail (head advances), or the
elements after it move one slot toward the head (tail retreats). -/
def ds_deque_remove (d : DsDeque α) (index : Int) : Except DsError (α × DsDeque α) :=
  if index < 0 ∨ (d.size : Int) ≤ index then .error .indexOutOfBounds
  else
    let i := index.toNat
    let c := d.capacity
    if 2 * i < d.size then
      .ok (d.buffer ((d.head + i) &&& (c - 1)),
        { buffer := fun s =>
            if s < c ∧ 0 < slotOffset c d.head s ∧ slotOffset c d.head s ≤ i then
              d.buffer ((s + c - 1) % c)
            else d.buffer s
          capacity := c
          head := (d.head + 1) &&& (c - 1)
          tail := d.tail
          size := d.size - 1 })
    else
      .ok (d.buffer ((d.head + i) &&& (c - 1)),
        { buffer := fun s =>
            if s < c ∧ i ≤ slotOffset c d.head s ∧ slotOffset c d.head s < d.size - 1 then
              d.buffer ((s + 1) % c)
            else d.buffer s
          capacity := c
          head := d.head
          tail := (d.tail + c - 1) &&& (c - 1)
          size := d.size - 1 })

/-- Modelled from the spec: start-offset clamping of `ds_deque_slice` (spec
section 4.2): a negative index counts from the end of the sequence, and an
out-of-range start clamps to `[0, size]`. -/
def sliceStart (size : Nat) (index : Int) : Nat :=
  if index < 0 then size - (-index).toNat else min index.toNat size

/-- Modelled from the spec: length clamping of `ds_deque_slice` (spec section
4.2): a negative length excludes that many trailing elements of the sequence,
and the resulting length clamps to the available elements. -/
def sliceLen (size start : Nat) (length : Int) : Nat :=
  if length < 0 then size - (-length).toNat - start else min length.toNat (size - start)

/-- Modelled from the spec: `ds_deque_slice` (spec section 4.2, declared in
`src/src/ds/ds_deque.h`, implementation missing): returns a new deque of
`length` elements starting at logical `index` (after the clamping of
`sliceStart` / `sliceLen`), copied out of the circular window and rebuilt as a
fresh deque; the source deque is not mutated. -/
def ds_deque_slice [Inhabited α] (d : DsDeque α) (index length : Int) : DsDeque α :=
  let start := sliceStart d.size index
  let len := sliceLen d.size start length
  ds_deque_from_array
    ((List.range len).map fun j => d.buffer ((d.head + (start + j)) &&& (d.capacity - 1)))

/-- Modelled from the spec: one forward rotation step of `ds_deque_rotate`
(spec section 4.2): shift the first element and push it at the back. -/
def rotateStepL (d : DsDeque α) : DsDeque α :=
  match ds_deque_shift d with
  | .ok (v, d) => ds_deque_push d v
  | .error _ => d

/-- Modelled from the spec: one backward rotation step of `ds_deque_rotate`
(spec section 4.2): pop the last element and unshift it at the front. -/
def rotateStepR (d : DsDeque α) : DsDeque α :=
  match ds_deque_pop d with
  | .ok (v, d) => ds_deque_unshift d v
  | .error _ => d

/-- Modelled from the spec: `ds_deque_rotate` (spec section 4.2, declared in
`src/src/ds/ds_deque.h`, implementation missing): rotates the window by `n`
positions — positive is forward via repeated shift+push, negative is backward
via repeated pop+unshift — performing net `n mod size` effective moves; a
no-op on an empty deque. -/
def ds_deque_rotate (d : DsDeque α) (n : Int) : DsDeque α :=
  if d.size = 0 then d
  else if 0 ≤ n then rotateStepL^[(n % (d.size : Int)).toNat] d
  else rotateStepR^[((-n) % (d.size : Int)).toNat] d

/-- Modelled from the spec: `ds_deque_sort` (spec section 4.2, declared in
`src/src/ds/ds_deque.h`, implementation missing): materializes the logical
window into a linear buffer, sorts it under the comparator's non-decreasing
relation (`cmp a b ≤ 0`, comparator contract of spec section 6) and writes it
back with head reset to eliminate wraparound.  The spec does not guarantee a
stable sort; the model uses merge sort. -/
def ds_deque_sort [Inhabited α] (d : DsDeque α) (cmp : α → α → Int) : DsDeque α :=
  let l := List.mergeSort (toList d) fun a b => decide (cmp a b ≤ 0)
  { buffer := fun s => l.getD s default
    capacity := d.capacity
    head := 0
    tail := d.size % d.capacity
    size := d.size }

/-- A small concrete deque holding `[1, 2, 3]`, used as an example state. -/
def exThree : DsDeque Int := ds_deque_from_array [1, 2, 3]

/-- A reachable full deque: eight values pushed onto a freshly constructed
empty deque, whose capacity is the minimum capacity 8, so that
`size = capacity` and `head = tail`; used as an example state. -/
def fullEight : DsDeque Int :=
  List.foldl ds_deque_push (ds_deque_from_array []) [1, 2, 3, 4, 5, 6, 7, 8]

/-- The capacity of the deque held in a successful result, `0` on an error;
used to observe a result's capacity through `Except`. -/
def exceptCapacity : Except DsError (DsDeque α) → Nat
  | .ok d => d.capacity
  | .error _ => 0

/-! ### Arithmetic helper lemmas -/

theorem log2fuel_two_pow : ∀ (k f : Nat), k < f → log2fuel f (2 ^ k) = k := by
  intro k
  induction k with
  | zero =>
    intro f hf
    match f, hf with
    | f + 1, _ => simp [log2fuel]
  | succ k ih =>
    intro f hf
    match f, hf with
    | f + 1, hf =>
      have hbig : k + 2 ≤ 2 ^ (k + 1) := Nat.lt_two_pow (k + 1)
      have h2 : ¬ 2 ^ (k + 1) ≤ 1 := by omega
      simp only [log2fuel, if_neg h2]
      rw [Nat.pow_succ, Nat.mul_div_cancel _ (by norm_num)]
      rw [ih f (by omega)]

theorem nlog2_two_pow (k : Nat) : nlog2 (2 ^ k) = k :=
  log2fuel_two_pow k (2 ^ k) (Nat.lt_two_pow k)

theorem pow_nlog2_of_pow {C k : Nat} (h : C = 2 ^ k) : C = 2 ^ nlog2 C := by
  subst h
  rw [nlog2_two_pow]

theorem mask_eq_mod {C : Nat} (hp : ∃ k, C = 2 ^ k) (x : Nat) : x &&& (C - 1) = x % C := by
  obtain ⟨k, rfl⟩ := hp
  exact Nat.and_pow_two_sub_one_eq_mod x k

theorem slot_inj {C h : Nat} (_hC : 0 < C) {i j : Nat} (hi : i < C) (hj : j < C)
    (e : (h + i) % C = (h + j) % C) : i = j := by
  have e' : i % C = j % C := Nat.ModEq.add_left_cancel' h e
  rwa [Nat.mod_eq_of_lt hi, Nat.mod_eq_of_lt hj] at e'

theorem slotOffset_slot {C h t : Nat} (hh : h < C) (ht : t < C) :
    slotOffset C h ((h + t) % C) = t := by
  unfold slotOffset
  have key : (h + t) % C + C - h + h = (h + t) % C + C := by omega
  have h1 : ((h + t) % C + C - h + h) % C = (t + h) % C := by
    rw [key, Nat.add_mod_right, Nat.mod_mod_of_dvd _ dvd_rfl, Nat.add_comm h t]
  have h2 : ((h + t) % C + C - h) % C = t % C := Nat.ModEq.add_right_cancel' h h1
  rwa [Nat.mod_eq_of_lt ht] at h2

/-! ### Capacity selection -/

theorem grow2_pow : ∀ (f c n k : Nat), c = 2 ^ k → ∃ j, grow2 f c n = 2 ^ j := by
  intro f
  induction f with
  | zero => intro c n k hc; exact ⟨k, hc⟩
  | succ f ih =>
    intro c n k hc
    by_cases hn : n ≤ c
    · exact ⟨k, by simpa [grow2, hn] using hc⟩
    · simp only [grow2, if_neg hn]
      exact ih (2 * c) n (k + 1) (by rw [hc, Nat.pow_succ, Nat.mul_comm])

theorem grow2_le_self : ∀ (f c n : Nat), c ≤ grow2 f c n := by
  intro f
  induction f with
  | zero => intro c n; simp [grow2]
  | succ f ih =>
    intro c n
    by_cases hn : n ≤ c
    · simp [grow2, hn]
    · simp only [grow2, if_neg hn]
      calc c ≤ 2 * c := by omega
        _ ≤ grow2 f (2 * c) n := ih (2 * c) n

theorem grow2_reaches : ∀ (f c n : Nat), 8 ≤ c → n ≤ c + 8 * f → n ≤ grow2 f c n := by
  intro f
  induction f with
  | zero =>
    intro c n _ h
    simp only [grow2]
    omega
  | succ f ih =>
    intro c n hc h
    by_cases hn : n ≤ c
    · simp only [grow2, if_pos hn]
      exact hn
    · simp only [grow2, if_neg hn]
      exact ih (2 * c) n (by omega) (by omega)

theorem capacityFor_pow (n : Nat) : ∃ j, capacityFor n = 2 ^ j :=
  grow2_pow n DS_DEQUE_MIN_CAPACITY n 3 rfl

theorem capacityFor_min (n : Nat) : DS_DEQUE_MIN_CAPACITY ≤ capacityFor n :=
  grow2_le_self n DS_DEQUE_MIN_CAPACITY n

theorem capacityFor_ge (n : Nat) : n ≤ capacityFor n :=
  grow2_reaches n DS_DEQUE_MIN_CAPACITY n (by norm_num [DS_DEQUE_MIN_CAPACITY]) (by
    show n ≤ 8 + 8 * n
    omega)

/-! ### Basic facts about the logical contents -/

theorem toList_length (d : DsDeque α) : (toList d).length = d.size := by
  simp [toList]

theorem toList_eq_nil_iff (d : DsDeque α) : toList d = [] ↔ d.size = 0 := by
  simp [toList]

theorem toList_mod {d : DsDeque α} (hp : ∃ k, d.capacity = 2 ^ k) :
    toList d = (List.range d.size).map fun i => d.buffer ((d.head + i) % d.capacity) := by
  simp [toList, mask_eq_mod hp]

theorem getD_range_map (l : List α) (junk : α) :
    ((List.range l.length).map fun i => l.getD i junk) = l := by
  apply List.ext_getElem
  · simp
  · intro t h1 h2
    simp only [List.getElem_map, List.getElem_range, List.getD_eq_getElem?_getD]
    rw [List.getElem?_eq_getElem h2]
    rfl

theorem map_range_take (f : Nat → α) {n m : Nat} (hm : m ≤ n) :
    ((List.range n).map f).take m = (List.range m).map f := by
  apply List.ext_getElem
  · simp
    omega
  · intro t h1 h2
    rw [List.getElem_take]
    simp

theorem map_range_drop (f : Nat → α) {n m : Nat} (_hm : m ≤ n) :
    ((List.range n).map f).drop m = (List.range (n - m)).map fun j => f (m + j) := by
  apply List.ext_getElem
  · simp
  · intro t h1 h2
    rw [List.getElem_drop]
    simp

theorem range_map_insert_split (f : Nat → α) (v : α) {i n : Nat} (hi : i ≤ n) :
    ((List.range (n + 1)).map fun t => if t < i then f t else if t = i then v else f (t - 1)) =
      ((List.range n).map f).take i ++ v :: ((List.range n).map f).drop i := by
  have hsplit : List.range (n + 1) = List.range i ++ (List.range (n + 1 - i)).map (i + ·) := by
    rw [List.range_eq_range', show n + 1 = (n + 1 - i) + i from by omega,
      ← List.range'_append_1 0 i (n + 1 - i), Nat.zero_add]
    rw [← List.range_eq_range', List.range'_eq_map_range, Nat.add_sub_cancel]
  rw [hsplit, List.map_append, List.map_map]
  rw [map_range_take f hi, map_range_drop f hi]
  congr 1
  · apply List.map_congr_left
    intro t ht
    rw [List.mem_range] at ht
    simp [ht]
  · rw [show n + 1 - i = (n - i) + 1 from by omega, List.range_succ_eq_map, List.map_cons,
      List.map_map]
    congr 1
    · show (if i + 0 < i then f (i + 0) else if i + 0 = i then v else f (i + 0 - 1)) = v
      simp
    · apply List.map_congr_left
      intro j hj
      rw [List.mem_range] at hj
      show (if i + (j + 1) < i then f (i + (j + 1))
              else if i + (j + 1) = i then v else f (i + (j + 1) - 1)) = f (i + j)
      rw [if_neg (by omega), if_neg (by omega),
        show i + (j + 1) - 1 = i + j from by omega]

theorem range_map_remove_split (f : Nat → α) {i n : Nat} (hi : i ≤ n) :
    ((List.range n).map fun t => if t < i then f t else f (t + 1)) =
      ((List.range (n + 1)).map f).take i ++ ((List.range (n + 1)).map f).drop (i + 1) := by
  apply List.ext_getElem
  · simp
    omega
  · intro t h1 h2
    simp only [List.getElem_map, List.getElem_range]
    by_cases hti : t < i
    · rw [List.getElem_append_left (by simp; omega)]
      rw [List.getElem_take]
      simp [hti]
    · rw [List.getElem_append_right (by simp; omega)]
      rw [List.getElem_drop]
      simp only [List.getElem_map, List.getElem_range]
      have hlen : (((List.range (n + 1)).map f).take i).length = i := by simp; omega
      rw [if_neg hti, hlen]
      congr 1
      omega

/-! ### Growth, push and unshift -/

theorem pow2_of_WF {d : DsDeque α} (hWF : WF d) : ∃ k, d.capacity = 2 ^ k :=
  ⟨nlog2 d.capacity, hWF.1⟩

theorem capacity_pos {d : DsDeque α} (hWF : WF d) : 0 < d.capacity := by
  have h8 : 8 ≤ d.capacity := hWF.2.1
  omega

theorem WF_grow {d : DsDeque α} (hWF : WF d) : WF (ds_deque_grow d) := by
  obtain ⟨hpow, hmin, hh, ht, hsz, hte⟩ := hWF
  have hmin' : 8 ≤ d.capacity := hmin
  refine ⟨?_, ?_, ?_, ?_, ?_, ?_⟩
  · exact pow_nlog2_of_pow (k := nlog2 d.capacity + 1)
      (show 2 * d.capacity = 2 ^ (nlog2 d.capacity + 1) by rw [Nat.pow_succ, Nat.mul_comm, ← hpow])
  · show DS_DEQUE_MIN_CAPACITY ≤ 2 * d.capacity
    show 8 ≤ 2 * d.capacity
    omega
  · show 0 < 2 * d.capacity
    omega
  · show d.size < 2 * d.capacity
    omega
  · show d.size ≤ 2 * d.capacity
    omega
  · show d.size = (0 + d.size) % (2 * d.capacity)
    rw [Nat.zero_add, Nat.mod_eq_of_lt (by omega)]

theorem grow_room {d : DsDeque α} (hWF : WF d) :
    (ds_deque_grow d).size < (ds_deque_grow d).capacity := by
  have h8 : 8 ≤ d.capacity := hWF.2.1
  have hsz : d.size ≤ d.capacity := hWF.2.2.2.2.1
  show d.size < 2 * d.capacity
  omega

theorem room_of_ne {d : DsDeque α} (hWF : WF d) (h : ¬ d.size = d.capacity) :
    d.size < d.capacity :=
  Nat.lt_of_le_of_ne hWF.2.2.2.2.1 h

theorem toList_grow {d : DsDeque α} (hWF : WF d) : toList (ds_deque_grow d) = toList d := by
  obtain ⟨hpow, hmin, hh, ht, hsz, hte⟩ := hWF
  have hp : ∃ k, d.capacity = 2 ^ k := ⟨_, hpow⟩
  have hp2 : ∃ k, 2 * d.capacity = 2 ^ k :=
    ⟨nlog2 d.capacity + 1, by rw [Nat.pow_succ, Nat.mul_comm, ← hpow]⟩
  have hmin' : 8 ≤ d.capacity := hmin
  rw [toList_mod (d := ds_deque_grow d) hp2, toList_mod hp]
  apply List.map_congr_left
  intro i hi
  rw [List.mem_range] at hi
  have hi' : i < d.size := hi
  show (ds_deque_grow d).buffer ((0 + i) % (2 * d.capacity)) = _
  rw [Nat.zero_add, Nat.mod_eq_of_lt (show i < 2 * d.capacity by omega)]
  show d.buffer ((d.head + i) &&& (d.capacity - 1)) = d.buffer ((d.head + i) % d.capacity)
  rw [mask_eq_mod hp]

theorem WF_pushAux {d : DsDeque α} (hWF : WF d) (hroom : d.size < d.capacity) (v : α) :
    WF (pushAux d v) := by
  obtain ⟨hpow, hmin, hh, ht, hsz, hte⟩ := hWF
  have hp : ∃ k, d.capacity = 2 ^ k := ⟨_, hpow⟩
  have hmin' : 8 ≤ d.capacity := hmin
  refine ⟨hpow, hmin, hh, ?_, ?_, ?_⟩
  · show (d.tail + 1) &&& (d.capacity - 1) < d.capacity
    rw [mask_eq_mod hp]
    exact Nat.mod_lt _ (by omega)
  · show d.size + 1 ≤ d.capacity
    omega
  · show (d.tail + 1) &&& (d.capacity - 1) = (d.head + (d.size + 1)) % d.capacity
    rw [mask_eq_mod hp, hte, Nat.mod_add_mod]
    rfl

theorem toList_pushAux {d : DsDeque α} (hWF : WF d) (hroom : d.size < d.capacity) (v : α) :
    toList (pushAux d v) = toList d ++ [v] := by
  obtain ⟨hpow, hmin, hh, ht, hsz, hte⟩ := hWF
  have hp : ∃ k, d.capacity = 2 ^ k := ⟨_, hpow⟩
  have hmin' : 8 ≤ d.capacity := hmin
  have hC : 0 < d.capacity := by omega
  rw [toList_mod (d := pushAux d v) hp, toList_mod hp]
  show (List.range (d.size + 1)).map _ = _
  rw [List.range_succ, List.map_append]
  congr 1
  · apply List.map_congr_left
    intro i hi
    rw [List.mem_range] at hi
    show (if (d.head + i) % d.capacity = d.tail then v
            else d.buffer ((d.head + i) % d.capacity)) = d.buffer ((d.head + i) % d.capacity)
    have hne : (d.head + i) % d.capacity ≠ d.tail := by
      intro e
      rw [hte] at e
      have := slot_inj hC (show i < d.capacity by omega) hroom e
      omega
    rw [if_neg hne]
  · show [if (d.head + d.size) % d.capacity = d.tail then v
            else d.buffer ((d.head + d.size) % d.capacity)] = [v]
    rw [if_pos hte.symm]

theorem WF_push {d : DsDeque α} (hWF : WF d) (v : α) : WF (ds_deque_push d v) := by
  unfold ds_deque_push
  by_cases h : d.size = d.capacity
  · rw [if_pos h]
    exact WF_pushAux (WF_grow hWF) (grow_room hWF) v
  · rw [if_neg h]
    exact WF_pushAux hWF (room_of_ne hWF h) v

theorem toList_push {d : DsDeque α} (hWF : WF d) (v : α) :
    toList (ds_deque_push d v) = toList d ++ [v] := by
  unfold ds_deque_push
  by_cases h : d.size = d.capacity
  · rw [if_pos h, toList_pushAux (WF_grow hWF) (grow_room hWF) v, toList_grow hWF]
  · rw [if_neg h, toList_pushAux hWF (room_of_ne hWF h) v]

theorem size_push (d : DsDeque α) (v : α) : (ds_deque_push d v).size = d.size + 1 := by
  unfold ds_deque_push
  by_cases h : d.size = d.capacity <;> simp [h, pushAux, ds_deque_grow]

theorem WF_unshiftAux {d : DsDeque α} (hWF : WF d) (hroom : d.size < d.capacity) (v : α) :
    WF (unshiftAux d v) := by
  obtain ⟨hpow, hmin, hh, ht, hsz, hte⟩ := hWF
  have hp : ∃ k, d.capacity = 2 ^ k := ⟨_, hpow⟩
  have hmin' : 8 ≤ d.capacity := hmin
  refine ⟨hpow, hmin, ?_, ht, ?_, ?_⟩
  · show (d.head + d.capacity - 1) &&& (d.capacity - 1) < d.capacity
    rw [mask_eq_mod hp]
    exact Nat.mod_lt _ (by omega)
  · show d.size + 1 ≤ d.capacity
    omega
  · show d.tail = (((d.head + d.capacity - 1) &&& (d.capacity - 1)) + (d.size + 1)) % d.capacity
    rw [mask_eq_mod hp, Nat.mod_add_mod,
      show d.head + d.capacity - 1 + (d.size + 1) = d.head + d.size + d.capacity from by omega,
      Nat.add_mod_right]
    exact hte

theorem toList_unshiftAux {d : DsDeque α} (hWF : WF d) (hroom : d.size < d.capacity) (v : α) :
    toList (unshiftAux d v) = v :: toList d := by
  obtain ⟨hpow, hmin, hh, ht, hsz, hte⟩ := hWF
  have hp : ∃ k, d.capacity = 2 ^ k := ⟨_, hpow⟩
  have hmin' : 8 ≤ d.capacity := hmin
  have hC : 0 < d.capacity := by omega
  rw [toList_mod (d := unshiftAux d v) hp, toList_mod hp]
  show (List.range (d.size + 1)).map _ = _
  rw [List.range_succ_eq_map, List.map_cons, List.map_map]
  have hh' : (d.head + d.capacity - 1) % d.capacity < d.capacity := Nat.mod_lt _ hC
  congr 1
  · show (if (((d.head + d.capacity - 1) &&& (d.capacity - 1)) + 0) % d.capacity =
            (d.head + d.capacity - 1) &&& (d.capacity - 1) then v
          else d.buffer ((((d.head + d.capacity - 1) &&& (d.capacity - 1)) + 0) % d.capacity)) = v
    rw [mask_eq_mod hp, if_pos (by rw [Nat.add_zero, Nat.mod_eq_of_lt hh'])]
  · apply List.map_congr_left
    intro i hi
    rw [List.mem_range] at hi
    show (if (((d.head + d.capacity - 1) &&& (d.capacity - 1)) + (i + 1)) % d.capacity =
            (d.head + d.capacity - 1) &&& (d.capacity - 1) then v
          else d.buffer ((((d.head + d.capacity - 1) &&& (d.capacity - 1)) + (i + 1)) %
            d.capacity)) =
        d.buffer ((d.head + i) % d.capacity)
    rw [mask_eq_mod hp]
    have harg : ((d.head + d.capacity - 1) % d.capacity + (i + 1)) % d.capacity =
        (d.head + i) % d.capacity := by
      rw [Nat.mod_add_mod,
        show d.head + d.capacity - 1 + (i + 1) = d.head + i + d.capacity from by omega,
        Nat.add_mod_right]
    rw [harg, if_neg]
    intro e
    rw [show d.head + d.capacity - 1 = d.head + (d.capacity - 1) from by omega] at e
    have := slot_inj hC (show i < d.capacity by omega)
      (show d.capacity - 1 < d.capacity by omega) e
    omega

theorem WF_unshift {d : DsDeque α} (hWF : WF d) (v : α) : WF (ds_deque_unshift d v) := by
  unfold ds_deque_unshift
  by_cases h : d.size = d.capacity
  · rw [if_pos h]
    exact WF_unshiftAux (WF_grow hWF) (grow_room hWF) v
  · rw [if_neg h]
    exact WF_unshiftAux hWF (room_of_ne hWF h) v

theorem toList_unshift {d : DsDeque α} (hWF : WF d) (v : α) :
    toList (ds_deque_unshift d v) = v :: toList d := by
  unfold ds_deque_unshift
  by_cases h : d.size = d.capacity
  · rw [if_pos h, toList_unshiftAux (WF_grow hWF) (grow_room hWF) v, toList_grow hWF]
  · rw [if_neg h, toList_unshiftAux hWF (room_of_ne hWF h) v]

theorem size_unshift (d : DsDeque α) (v : α) : (ds_deque_unshift d v).size = d.size + 1 := by
  unfold ds_deque_unshift
  by_cases h : d.size = d.capacity <;> simp [h, unshiftAux, ds_deque_grow]

/-! ### Pop, shift, set -/

theorem toList_getLast? {d : DsDeque α} (hne : d.size ≠ 0) :
    (toList d).getLast? = some (d.buffer ((d.head + (d.size - 1)) &&& (d.capacity - 1))) := by
  rw [List.getLast?_eq_getElem?, toList_length]
  unfold toList
  rw [List.getElem?_map, List.getElem?_range (by omega)]
  rfl

theorem toList_head? {d : DsDeque α} (hne : d.size ≠ 0) :
    (toList d).head? = some (d.buffer ((d.head + 0) &&& (d.capacity - 1))) := by
  rw [List.head?_eq_getElem?]
  unfold toList
  rw [List.getElem?_map, List.getElem?_range (by omega)]
  rfl

theorem pop_spec {d : DsDeque α} (hWF : WF d) (hne : d.size ≠ 0) :
    ∃ v d', ds_deque_pop d = .ok (v, d') ∧ toList d = toList d' ++ [v] ∧ WF d' ∧
      d'.size = d.size - 1 ∧ d'.capacity = d.capacity ∧ d'.head = d.head ∧
      d'.buffer = d.buffer := by
  obtain ⟨hpow, hmin, hh, htl, hsz, hte⟩ := hWF
  have hp : ∃ k, d.capacity = 2 ^ k := ⟨_, hpow⟩
  have hmin' : 8 ≤ d.capacity := hmin
  have hC : 0 < d.capacity := by omega
  obtain ⟨m, hm⟩ : ∃ m, d.size = m + 1 := ⟨d.size - 1, by omega⟩
  refine ⟨d.buffer ((d.tail + d.capacity - 1) &&& (d.capacity - 1)),
    { buffer := d.buffer, capacity := d.capacity, head := d.head,
      tail := (d.tail + d.capacity - 1) &&& (d.capacity - 1), size := d.size - 1 },
    ?_, ?_, ?_, rfl, rfl, rfl, rfl⟩
  · unfold ds_deque_pop
    rw [if_neg hne]
  · rw [hm] at hte
    rw [toList_mod hp,
      toList_mod (d := (⟨d.buffer, d.capacity, d.head,
        (d.tail + d.capacity - 1) &&& (d.capacity - 1), d.size - 1⟩ : DsDeque α)) hp]
    show (List.range d.size).map _ = (List.range (d.size - 1)).map _ ++ _
    rw [hm]
    simp only [Nat.add_sub_cancel]
    rw [List.range_succ, List.map_append]
    congr 1
    · show [d.buffer ((d.head + m) % d.capacity)] =
        [d.buffer ((d.tail + d.capacity - 1) &&& (d.capacity - 1))]
      rw [mask_eq_mod hp, hte,
        show (d.head + (m + 1)) % d.capacity + d.capacity - 1 =
          (d.head + (m + 1)) % d.capacity + (d.capacity - 1) from by omega,
        Nat.mod_add_mod,
        show d.head + (m + 1) + (d.capacity - 1) = d.head + m + d.capacity from by omega,
        Nat.add_mod_right]
  · refine ⟨hpow, hmin, hh, ?_, ?_, ?_⟩
    · show (d.tail + d.capacity - 1) &&& (d.capacity - 1) < d.capacity
      rw [mask_eq_mod hp]
      exact Nat.mod_lt _ hC
    · show d.size - 1 ≤ d.capacity
      omega
    · show (d.tail + d.capacity - 1) &&& (d.capacity - 1) = (d.head + (d.size - 1)) % d.capacity
      rw [mask_eq_mod hp, hte, hm]
      simp only [Nat.add_sub_cancel]
      rw [show (d.head + (m + 1)) % d.capacity + d.capacity - 1 =
          (d.head + (m + 1)) % d.capacity + (d.capacity - 1) from by omega,
        Nat.mod_add_mod,
        show d.head + (m + 1) + (d.capacity - 1) = d.head + m + d.capacity from by omega,
        Nat.add_mod_right]

theorem shift_spec {d : DsDeque α} (hWF : WF d) (hne : d.size ≠ 0) :
    ∃ v d', ds_deque_shift d = .ok (v, d') ∧ toList d = v :: toList d' ∧ WF d' ∧
      d'.size = d.size - 1 ∧ d'.capacity = d.capacity ∧ d'.buffer = d.buffer := by
  obtain ⟨hpow, hmin, hh, htl, hsz, hte⟩ := hWF
  have hp : ∃ k, d.capacity = 2 ^ k := ⟨_, hpow⟩
  have hmin' : 8 ≤ d.capacity := hmin
  have hC : 0 < d.capacity := by omega
  obtain ⟨m, hm⟩ : ∃ m, d.size = m + 1 := ⟨d.size - 1, by omega⟩
  refine ⟨d.buffer d.head,
    { buffer := d.buffer, capacity := d.capacity,
      head := (d.head + 1) &&& (d.capacity - 1), tail := d.tail, size := d.size - 1 },
    ?_, ?_, ?_, rfl, rfl, rfl⟩
  · unfold ds_deque_shift
    rw [if_neg hne]
  · rw [hm] at hte
    rw [toList_mod hp,
      toList_mod (d := (⟨d.buffer, d.capacity,
        (d.head + 1) &&& (d.capacity - 1), d.tail, d.size - 1⟩ : DsDeque α)) hp]
    show (List.range d.size).map _ = _ :: (List.range (d.size - 1)).map _
    rw [hm]
    simp only [Nat.add_sub_cancel]
    rw [List.range_succ_eq_map, List.map_cons, List.map_map]
    congr 1
    · show d.buffer ((d.head + 0) % d.capacity) = d.buffer d.head
      rw [Nat.add_zero, Nat.mod_eq_of_lt hh]
    · apply List.map_congr_left
      intro i hi
      rw [List.mem_range] at hi
      show d.buffer ((d.head + (i + 1)) % d.capacity) =
        d.buffer ((((d.head + 1) &&& (d.capacity - 1)) + i) % d.capacity)
      rw [mask_eq_mod hp, Nat.mod_add_mod,
        show d.head + 1 + i = d.head + (i + 1) from by omega]
  · refine ⟨hpow, hmin, ?_, htl, ?_, ?_⟩
    · show (d.head + 1) &&& (d.capacity - 1) < d.capacity
      rw [mask_eq_mod hp]
      exact Nat.mod_lt _ hC
    · show d.size - 1 ≤ d.capacity
      omega
    · show d.tail = (((d.head + 1) &&& (d.capacity - 1)) + (d.size - 1)) % d.capacity
      rw [mask_eq_mod hp, hte, hm]
      simp only [Nat.add_sub_cancel]
      rw [Nat.mod_add_mod, show d.head + 1 + m = d.head + (m + 1) from by omega]

theorem set_ok_WF {d : DsDeque α} (hWF : WF d) {index : Int} {v : α} {d' : DsDeque α}
    (h : ds_deque_set d index v = .ok d') : WF d' := by
  unfold ds_deque_set at h
  by_cases hb : index < 0 ∨ (d.size : Int) ≤ index
  · rw [if_pos hb] at h
    exact absurd h (by simp)
  · rw [if_neg hb] at h
    obtain ⟨hpow, hmin, hh, htl, hsz, hte⟩ := hWF
    simp only [Except.ok.injEq] at h
    subst h
    exact ⟨hpow, hmin, hh, htl, hsz, hte⟩

/-! ### Construction from an array, sort, slice -/

theorem WF_from_array [Inhabited α] (l : List α) : WF (ds_deque_from_array (α := α) l) := by
  obtain ⟨k, hk⟩ := capacityFor_pow l.length
  have hge := capacityFor_ge l.length
  have hmin := capacityFor_min l.length
  have hmin' : 8 ≤ capacityFor l.length := hmin
  refine ⟨?_, hmin, ?_, ?_, hge, ?_⟩
  · exact pow_nlog2_of_pow hk
  · show 0 < capacityFor l.length
    omega
  · show l.length % capacityFor l.length < capacityFor l.length
    exact Nat.mod_lt _ (by omega)
  · show l.length % capacityFor l.length = (0 + l.length) % capacityFor l.length
    rw [Nat.zero_add]

theorem toList_from_array [Inhabited α] (l : List α) :
    toList (ds_deque_from_array l) = l := by
  have hp : ∃ k, capacityFor l.length = 2 ^ k := capacityFor_pow l.length
  have hge := capacityFor_ge l.length
  have hmin' : 8 ≤ capacityFor l.length := capacityFor_min l.length
  rw [toList_mod (d := ds_deque_from_array l) hp]
  show (List.range l.length).map (fun i => l.getD ((0 + i) % capacityFor l.length) default) = l
  have hcong : ∀ i ∈ List.range l.length,
      l.getD ((0 + i) % capacityFor l.length) default = l.getD i default := by
    intro i hi
    rw [List.mem_range] at hi
    rw [Nat.zero_add, Nat.mod_eq_of_lt (by omega)]
  rw [List.map_congr_left hcong]
  exact getD_range_map l default

theorem toList_getD [Inhabited α] (d : DsDeque α) {i : Nat} (hi : i < d.size) :
    (toList d).getD i default = d.buffer ((d.head + i) &&& (d.capacity - 1)) := by
  unfold toList
  rw [List.getD_eq_getElem?_getD, List.getElem?_map, List.getElem?_range hi]
  rfl

theorem WF_sort [Inhabited α] {d : DsDeque α} (hWF : WF d) (cmp : α → α → Int) :
    WF (ds_deque_sort d cmp) := by
  obtain ⟨hpow, hmin, hh, htl, hsz, hte⟩ := hWF
  have hmin' : 8 ≤ d.capacity := hmin
  refine ⟨hpow, hmin, ?_, ?_, hsz, ?_⟩
  · show 0 < d.capacity
    omega
  · show d.size % d.capacity < d.capacity
    exact Nat.mod_lt _ (by omega)
  · show d.size % d.capacity = (0 + d.size) % d.capacity
    rw [Nat.zero_add]

theorem toList_sort [Inhabited α] {d : DsDeque α} (hWF : WF d) (cmp : α → α → Int) :
    toList (ds_deque_sort d cmp) =
      List.mergeSort (toList d) fun a b => decide (cmp a b ≤ 0) := by
  obtain ⟨hpow, hmin, hh, htl, hsz, hte⟩ := hWF
  have hp : ∃ k, d.capacity = 2 ^ k := ⟨_, hpow⟩
  have hlen : (List.mergeSort (toList d) fun a b => decide (cmp a b ≤ 0)).length = d.size := by
    rw [List.length_mergeSort, toList_length]
  rw [toList_mod (d := ds_deque_sort d cmp) hp]
  show (List.range d.size).map
      (fun i => (List.mergeSort (toList d) fun a b => decide (cmp a b ≤ 0)).getD
        ((0 + i) % d.capacity) default) = _
  have hcong : ∀ i ∈ List.range d.size,
      (List.mergeSort (toList d) fun a b => decide (cmp a b ≤ 0)).getD
        ((0 + i) % d.capacity) default =
      (List.mergeSort (toList d) fun a b => decide (cmp a b ≤ 0)).getD i default := by
    intro i hi
    rw [List.mem_range] at hi
    rw [Nat.zero_add, Nat.mod_eq_of_lt (by omega)]
  rw [List.map_congr_left hcong, show d.size = (List.mergeSort (toList d) fun a b =>
    decide (cmp a b ≤ 0)).length from hlen.symm]
  exact getD_range_map _ default

theorem sliceStart_le (size : Nat) (index : Int) : sliceStart size index ≤ size := by
  unfold sliceStart
  split
  · omega
  · exact Nat.min_le_right _ _

theorem sliceLen_le (size start : Nat) (length : Int) : sliceLen size start length ≤ size - start := by
  unfold sliceLen
  split
  · omega
  · exact Nat.min_le_right _ _

theorem toList_slice [Inhabited α] (d : DsDeque α) (index length : Int) :
    toList (ds_deque_slice d index length) =
      ((toList d).drop (sliceStart d.size index)).take
        (sliceLen d.size (sliceStart d.size index) length) := by
  have hstart := sliceStart_le d.size index
  have hlen := sliceLen_le d.size (sliceStart d.size index) length
  show toList (ds_deque_from_array
      ((List.range (sliceLen d.size (sliceStart d.size index) length)).map
        fun j => d.buffer ((d.head + (sliceStart d.size index + j)) &&& (d.capacity - 1)))) = _
  rw [toList_from_array]
  conv_rhs => rw [toList]
  rw [map_range_drop _ hstart, map_range_take _ hlen]

theorem WF_slice [Inhabited α] (d : DsDeque α) (index length : Int) :
    WF (ds_deque_slice d index length) :=
  WF_from_array _

/-! ### Insert -/

theorem slot_step {C x y z : Nat} (h : x + y = z + C) : (x % C + y) % C = z % C := by
  rw [Nat.mod_add_mod, h, Nat.add_mod_right]

theorem slot_step0 {C x y z : Nat} (h : x + y = z) : (x % C + y) % C = z % C := by
  rw [Nat.mod_add_mod, h]

theorem insert_spec {d : DsDeque α} (hWF : WF d) (hroom : d.size < d.capacity)
    {index : Int} (h0 : 0 ≤ index) (hle : index ≤ (d.size : Int)) (v : α) :
    ∃ d', ds_deque_insert d index v = .ok d' ∧
      toList d' = (toList d).take index.toNat ++ v :: (toList d).drop index.toNat ∧
      WF d' ∧ d'.size = d.size + 1 ∧ d'.capacity = d.capacity ∧
      (2 * index.toNat ≤ d.size →
        d'.head = (d.head + d.capacity - 1) % d.capacity ∧ d'.tail = d.tail ∧
        ∀ s, s < d.capacity → index.toNat < slotOffset d.capacity d'.head s →
          d'.buffer s = d.buffer s) ∧
      (d.size < 2 * index.toNat →
        d'.head = d.head ∧ d'.tail = (d.tail + 1) % d.capacity ∧
        ∀ s, s < d.capacity →
          (slotOffset d.capacity d.head s < index.toNat ∨
            d.size < slotOffset d.capacity d.head s) →
          d'.buffer s = d.buffer s) := by
  obtain ⟨hpow, hmin, hh, htl, hsz, hte⟩ := hWF
  have hp : ∃ k, d.capacity = 2 ^ k := ⟨_, hpow⟩
  have hmin' : 8 ≤ d.capacity := hmin
  have hC : 0 < d.capacity := by omega
  have hnb : ¬ (index < 0 ∨ (d.size : Int) < index) := by omega
  have hfull : ¬ d.size = d.capacity := by omega
  have hile : index.toNat ≤ d.size := by omega
  have hf : toList d = (List.range d.size).map
      fun t => d.buffer ((d.head + t) &&& (d.capacity - 1)) := rfl
  unfold ds_deque_insert
  rw [if_neg hnb, if_neg hfull]
  by_cases hside : 2 * index.toNat ≤ d.size
  · rw [if_pos hside]
    refine ⟨_, rfl, ?_, ?_, rfl, rfl, fun _ => ⟨mask_eq_mod hp _, rfl, ?_⟩,
      fun hcon => absurd hside (by omega)⟩
    · -- logical contents
      rw [hf, ← range_map_insert_split _ v hile]
      unfold toList
      apply List.map_congr_left
      intro t ht
      rw [List.mem_range] at ht
      have hts : t < d.size + 1 := ht
      show (let c := d.capacity
            let h := (d.head + d.capacity - 1) &&& (d.capacity - 1)
            (fun s =>
              if s < c ∧ slotOffset c h s < index.toNat then d.buffer ((s + 1) % c)
              else if s < c ∧ slotOffset c h s = index.toNat then v
              else d.buffer s))
          ((((d.head + d.capacity - 1) &&& (d.capacity - 1)) + t) &&& (d.capacity - 1)) =
        if t < index.toNat then d.buffer ((d.head + t) &&& (d.capacity - 1))
        else if t = index.toNat then v
        else d.buffer ((d.head + (t - 1)) &&& (d.capacity - 1))
      simp only [mask_eq_mod hp]
      have hslt : (((d.head + d.capacity - 1) % d.capacity) + t) % d.capacity < d.capacity :=
        Nat.mod_lt _ hC
      have hoff : slotOffset d.capacity ((d.head + d.capacity - 1) % d.capacity)
          ((((d.head + d.capacity - 1) % d.capacity) + t) % d.capacity) = t :=
        slotOffset_slot (Nat.mod_lt _ hC) (by omega)
      rw [hoff]
      by_cases h1 : t < index.toNat
      · rw [if_pos ⟨hslt, h1⟩, if_pos h1]
        congr 1
        rw [Nat.mod_add_mod (d.head + d.capacity - 1) d.capacity t]
        exact slot_step (show d.head + d.capacity - 1 + t + 1 =
          d.head + t + d.capacity from by omega)
      · by_cases h2 : t = index.toNat
        · rw [if_neg (fun hcon => h1 hcon.2), if_pos ⟨hslt, h2⟩, if_neg h1, if_pos h2]
        · rw [if_neg (fun hcon => h1 hcon.2), if_neg (fun hcon => h2 hcon.2),
            if_neg h1, if_neg h2]
          congr 1
          rw [Nat.mod_add_mod, show d.head + d.capacity - 1 + t =
            d.head + (t - 1) + d.capacity from by omega, Nat.add_mod_right]
    · -- well-formedness
      refine ⟨hpow, hmin, ?_, htl, ?_, ?_⟩
      · show (d.head + d.capacity - 1) &&& (d.capacity - 1) < d.capacity
        rw [mask_eq_mod hp]
        exact Nat.mod_lt _ hC
      · show d.size + 1 ≤ d.capacity
        omega
      · show d.tail = ((((d.head + d.capacity - 1) &&& (d.capacity - 1)) + (d.size + 1)) %
          d.capacity)
        rw [mask_eq_mod hp, slot_step (show d.head + d.capacity - 1 + (d.size + 1) =
          d.head + d.size + d.capacity from by omega)]
        exact hte
    · -- untouched slots on the after side
      intro s hs hgt
      have hgt' : index.toNat < slotOffset d.capacity
          ((d.head + d.capacity - 1) &&& (d.capacity - 1)) s := hgt
      show (if s < d.capacity ∧ slotOffset d.capacity
              ((d.head + d.capacity - 1) &&& (d.capacity - 1)) s < index.toNat then
              d.buffer ((s + 1) % d.capacity)
            else if s < d.capacity ∧ slotOffset d.capacity
              ((d.head + d.capacity - 1) &&& (d.capacity - 1)) s = index.toNat then v
            else d.buffer s) = d.buffer s
      rw [if_neg (fun hcon => absurd hcon.2 (by omega)),
        if_neg (fun hcon => absurd hcon.2 (by omega))]
  · rw [if_neg hside]
    refine ⟨_, rfl, ?_, ?_, rfl, rfl, fun hcon => absurd hcon (by omega),
      fun _ => ⟨rfl, mask_eq_mod hp _, ?_⟩⟩
    · -- logical contents
      rw [hf, ← range_map_insert_split _ v hile]
      unfold toList
      apply List.map_congr_left
      intro t ht
      rw [List.mem_range] at ht
      have hts : t < d.size + 1 := ht
      show (let c := d.capacity
            (fun s =>
              if s < c ∧ index.toNat < slotOffset c d.head s ∧
                  slotOffset c d.head s ≤ d.size then d.buffer ((s + c - 1) % c)
              else if s < c ∧ slotOffset c d.head s = index.toNat then v
              else d.buffer s))
          ((d.head + t) &&& (d.capacity - 1)) =
        if t < index.toNat then d.buffer ((d.head + t) &&& (d.capacity - 1))
        else if t = index.toNat then v
        else d.buffer ((d.head + (t - 1)) &&& (d.capacity - 1))
      simp only [mask_eq_mod hp]
      have hslt : (d.head + t) % d.capacity < d.capacity := Nat.mod_lt _ hC
      have hoff : slotOffset d.capacity d.head ((d.head + t) % d.capacity) = t :=
        slotOffset_slot hh (by omega)
      rw [hoff]
      by_cases h1 : t < index.toNat
      · rw [if_neg (fun hcon => absurd hcon.2.1 (by omega)),
          if_neg (fun hcon => absurd hcon.2 (by omega)), if_pos h1]
      · by_cases h2 : t = index.toNat
        · rw [if_neg (fun hcon => absurd hcon.2.1 (by omega)), if_pos ⟨hslt, h2⟩,
            if_neg h1, if_pos h2]
        · rw [if_pos ⟨hslt, by omega, by omega⟩, if_neg h1, if_neg h2]
          congr 1
          rw [show (d.head + t) % d.capacity + d.capacity - 1 =
            (d.head + t) % d.capacity + (d.capacity - 1) from by omega,
            slot_step (show d.head + t + (d.capacity - 1) =
              d.head + (t - 1) + d.capacity from by omega)]
    · -- well-formedness
      refine ⟨hpow, hmin, hh, ?_, ?_, ?_⟩
      · show (d.tail + 1) &&& (d.capacity - 1) < d.capacity
        rw [mask_eq_mod hp]
        exact Nat.mod_lt _ hC
      · show d.size + 1 ≤ d.capacity
        omega
      · show (d.tail + 1) &&& (d.capacity - 1) = (d.head + (d.size + 1)) % d.capacity
        rw [mask_eq_mod hp, hte, slot_step0 rfl]
        rfl
    · -- untouched slots outside the moved suffix
      intro s hs hout
      show (if s < d.capacity ∧ index.toNat < slotOffset d.capacity d.head s ∧
              slotOffset d.capacity d.head s ≤ d.size then
              d.buffer ((s + d.capacity - 1) % d.capacity)
            else if s < d.capacity ∧ slotOffset d.capacity d.head s = index.toNat then v
            else d.buffer s) = d.buffer s
      rw [if_neg (fun hcon => by omega), if_neg (fun hcon => by omega)]

/-! ### Remove -/

theorem remove_spec {d : DsDeque α} (hWF : WF d)
    {index : Int} (h0 : 0 ≤ index) (hlt : index < (d.size : Int)) :
    ∃ v d', ds_deque_remove d index = .ok (v, d') ∧
      (toList d)[index.toNat]? = some v ∧
      toList d' = (toList d).take index.toNat ++ (toList d).drop (index.toNat + 1) ∧
      WF d' ∧ d'.size = d.size - 1 ∧ d'.capacity = d.capacity := by
  obtain ⟨hpow, hmin, hh, htl, hsz, hte⟩ := hWF
  have hp : ∃ k, d.capacity = 2 ^ k := ⟨_, hpow⟩
  have hmin' : 8 ≤ d.capacity := hmin
  have hC : 0 < d.capacity := by omega
  have hnb : ¬ (index < 0 ∨ (d.size : Int) ≤ index) := by omega
  have hilt : index.toNat < d.size := by omega
  obtain ⟨m, hm⟩ : ∃ m, d.size = m + 1 := ⟨d.size - 1, by omega⟩
  have hf : toList d = (List.range d.size).map
      fun t => d.buffer ((d.head + t) &&& (d.capacity - 1)) := rfl
  have hval : (toList d)[index.toNat]? =
      some (d.buffer ((d.head + index.toNat) &&& (d.capacity - 1))) := by
    rw [hf, List.getElem?_map, List.getElem?_range hilt]
    rfl
  unfold ds_deque_remove
  rw [if_neg hnb]
  by_cases hside : 2 * index.toNat < d.size
  · rw [if_pos hside]
    refine ⟨_, _, rfl, hval, ?_, ?_, rfl, rfl⟩
    · -- logical contents
      rw [hf, hm, ← range_map_remove_split _ (show index.toNat ≤ m by omega)]
      simp only [Nat.add_sub_cancel]
      unfold toList
      apply List.map_congr_left
      intro t ht
      rw [List.mem_range] at ht
      have hts : t < m := ht
      show (let c := d.capacity
            (fun s =>
              if s < c ∧ 0 < slotOffset c d.head s ∧ slotOffset c d.head s ≤ index.toNat then
                d.buffer ((s + c - 1) % c)
              else d.buffer s))
          ((((d.head + 1) &&& (d.capacity - 1)) + t) &&& (d.capacity - 1)) =
        if t < index.toNat then d.buffer ((d.head + t) &&& (d.capacity - 1))
        else d.buffer ((d.head + (t + 1)) &&& (d.capacity - 1))
      simp only [mask_eq_mod hp]
      have hsarg : (((d.head + 1) % d.capacity) + t) % d.capacity =
          (d.head + (t + 1)) % d.capacity := by
        rw [Nat.mod_add_mod, show d.head + 1 + t = d.head + (t + 1) from by omega]
      rw [hsarg]
      have hslt : (d.head + (t + 1)) % d.capacity < d.capacity := Nat.mod_lt _ hC
      have hoff : slotOffset d.capacity d.head ((d.head + (t + 1)) % d.capacity) = t + 1 :=
        slotOffset_slot hh (by omega)
      rw [hoff]
      by_cases h1 : t < index.toNat
      · rw [if_pos ⟨hslt, by omega, by omega⟩, if_pos h1]
        congr 1
        rw [show (d.head + (t + 1)) % d.capacity + d.capacity - 1 =
          (d.head + (t + 1)) % d.capacity + (d.capacity - 1) from by omega,
          slot_step (show d.head + (t + 1) + (d.capacity - 1) =
            d.head + t + d.capacity from by omega)]
      · rw [if_neg (fun hcon => absurd hcon.2.2 (by omega)), if_neg h1]
    · -- well-formedness
      refine ⟨hpow, hmin, ?_, htl, ?_, ?_⟩
      · show (d.head + 1) &&& (d.capacity - 1) < d.capacity
        rw [mask_eq_mod hp]
        exact Nat.mod_lt _ hC
      · show d.size - 1 ≤ d.capacity
        omega
      · show d.tail = ((((d.head + 1) &&& (d.capacity - 1)) + (d.size - 1)) % d.capacity)
        rw [mask_eq_mod hp, slot_step0 (show d.head + 1 + (d.size - 1) =
          d.head + d.size from by omega)]
        exact hte
  · rw [if_neg hside]
    refine ⟨_, _, rfl, hval, ?_, ?_, rfl, rfl⟩
    · -- logical contents
      rw [hf, hm, ← range_map_remove_split _ (show index.toNat ≤ m by omega)]
      simp only [Nat.add_sub_cancel]
      unfold toList
      apply List.map_congr_left
      intro t ht
      rw [List.mem_range] at ht
      have hts : t < m := ht
      show (let c := d.capacity
            (fun s =>
              if s < c ∧ index.toNat ≤ slotOffset c d.head s ∧ slotOffset c d.head s < m then
                d.buffer ((s + 1) % c)
              else d.buffer s))
          ((d.head + t) &&& (d.capacity - 1)) =
        if t < index.toNat then d.buffer ((d.head + t) &&& (d.capacity - 1))
        else d.buffer ((d.head + (t + 1)) &&& (d.capacity - 1))
      simp only [mask_eq_mod hp]
      have hslt : (d.head + t) % d.capacity < d.capacity := Nat.mod_lt _ hC
      have hoff : slotOffset d.capacity d.head ((d.head + t) % d.capacity) = t :=
        slotOffset_slot hh (by omega)
      rw [hoff]
      by_cases h1 : t < index.toNat
      · rw [if_neg (fun hcon => absurd hcon.2.1 (by omega)), if_pos h1]
      · rw [if_pos ⟨hslt, by omega, by omega⟩, if_neg h1]
        congr 1
        rw [slot_step0 (show d.head + t + 1 = d.head + (t + 1) from by omega)]
    · -- well-formedness
      refine ⟨hpow, hmin, hh, ?_, ?_, ?_⟩
      · show (d.tail + d.capacity - 1) &&& (d.capacity - 1) < d.capacity
        rw [mask_eq_mod hp]
        exact Nat.mod_lt _ hC
      · show d.size - 1 ≤ d.capacity
        omega
      · show (d.tail + d.capacity - 1) &&& (d.capacity - 1) = (d.head + (d.size - 1)) % d.capacity
        rw [mask_eq_mod hp, hte,
          show (d.head + d.size) % d.capacity + d.capacity - 1 =
            (d.head + d.size) % d.capacity + (d.capacity - 1) from by omega,
          slot_step (show d.head + d.size + (d.capacity - 1) =
            d.head + (d.size - 1) + d.capacity from by omega)]

/-! ### Error behaviour -/

theorem ite_ok_ne_error {β : Type} {P : Prop} [Decidable P] (x y : β) (e : DsError) :
    (if P then Except.ok x else Except.ok y) ≠ Except.error e := by
  split <;> simp

theorem pop_error_iff (d : DsDeque α) :
    ds_deque_pop d = .error .emptyContainer ↔ d.size = 0 := by
  unfold ds_deque_pop
  by_cases h : d.size = 0 <;> simp [h]

theorem shift_error_iff (d : DsDeque α) :
    ds_deque_shift d = .error .emptyContainer ↔ d.size = 0 := by
  unfold ds_deque_shift
  by_cases h : d.size = 0 <;> simp [h]

theorem get_first_error_iff (d : DsDeque α) :
    ds_deque_get_first d = .error .emptyContainer ↔ d.size = 0 := by
  unfold ds_deque_get_first
  by_cases h : d.size = 0 <;> simp [h]

theorem get_last_error_iff (d : DsDeque α) :
    ds_deque_get_last d = .error .emptyContainer ↔ d.size = 0 := by
  unfold ds_deque_get_last
  by_cases h : d.size = 0 <;> simp [h]

theorem get_error_iff (d : DsDeque α) (index : Int) :
    ds_deque_get d index = .error .indexOutOfBounds ↔
      (index < 0 ∨ (d.size : Int) ≤ index) := by
  unfold ds_deque_get
  by_cases h : index < 0 ∨ (d.size : Int) ≤ index <;> simp [h]

theorem set_error_iff (d : DsDeque α) (index : Int) (v : α) :
    ds_deque_set d index v = .error .indexOutOfBounds ↔
      (index < 0 ∨ (d.size : Int) ≤ index) := by
  unfold ds_deque_set
  by_cases h : index < 0 ∨ (d.size : Int) ≤ index <;> simp [h]

theorem remove_error_iff (d : DsDeque α) (index : Int) :
    ds_deque_remove d index = .error .indexOutOfBounds ↔
      (index < 0 ∨ (d.size : Int) ≤ index) := by
  unfold ds_deque_remove
  by_cases h : index < 0 ∨ (d.size : Int) ≤ index
  · simp [h]
  · rw [if_neg h]
    simp only [h, iff_false]
    intro hcontra
    exact ite_ok_ne_error _ _ _ hcontra

theorem insert_error_iff (d : DsDeque α) (index : Int) (v : α) :
    ds_deque_insert d index v = .error .indexOutOfBounds ↔
      (index < 0 ∨ (d.size : Int) < index) := by
  unfold ds_deque_insert
  by_cases h : index < 0 ∨ (d.size : Int) < index
  · simp [h]
  · rw [if_neg h]
    simp only [h, iff_false]
    intro hcontra
    exact ite_ok_ne_error _ _ _ hcontra

theorem pop_ok_WF {d : DsDeque α} (hWF : WF d) {v : α} {d' : DsDeque α}
    (h : ds_deque_pop d = .ok (v, d')) : WF d' := by
  by_cases hz : d.size = 0
  · rw [(pop_error_iff d).mpr hz] at h
    exact absurd h (by simp)
  · obtain ⟨v2, d2, heq, _, hWF2, _⟩ := pop_spec hWF hz
    rw [heq] at h
    simp only [Except.ok.injEq, Prod.mk.injEq] at h
    exact h.2 ▸ hWF2

theorem shift_ok_WF {d : DsDeque α} (hWF : WF d) {v : α} {d' : DsDeque α}
    (h : ds_deque_shift d = .ok (v, d')) : WF d' := by
  by_cases hz : d.size = 0
  · rw [(shift_error_iff d).mpr hz] at h
    exact absurd h (by simp)
  · obtain ⟨v2, d2, heq, _, hWF2, _⟩ := shift_spec hWF hz
    rw [heq] at h
    simp only [Except.ok.injEq, Prod.mk.injEq] at h
    exact h.2 ▸ hWF2

theorem insert_full_eq {d : DsDeque α} (hWF : WF d) (hfull : d.size = d.capacity)
    (index : Int) (v : α) :
    ds_deque_insert d index v = ds_deque_insert (ds_deque_grow d) index v := by
  have hgrow : ¬ (ds_deque_grow d).size = (ds_deque_grow d).capacity := by
    have := grow_room hWF
    omega
  unfold ds_deque_insert
  by_cases hb : index < 0 ∨ (d.size : Int) < index
  · rw [if_pos hb, if_pos (show index < 0 ∨ ((ds_deque_grow d).size : Int) < index from hb)]
  · rw [if_neg hb, if_neg (show ¬ (index < 0 ∨ ((ds_deque_grow d).size : Int) < index) from hb),
      if_pos hfull, if_neg hgrow]

theorem insert_ok_WF {d : DsDeque α} (hWF : WF d) {index : Int} {v : α} {d' : DsDeque α}
    (h : ds_deque_insert d index v = .ok d') : WF d' := by
  by_cases hb : index < 0 ∨ (d.size : Int) < index
  · rw [(insert_error_iff d index v).mpr hb] at h
    exact absurd h (by simp)
  · have h0 : 0 ≤ index := by omega
    have hle : index ≤ (d.size : Int) := by omega
    by_cases hfull : d.size = d.capacity
    · rw [insert_full_eq hWF hfull] at h
      obtain ⟨d2, heq, _, hWF2, _⟩ := insert_spec (WF_grow hWF) (grow_room hWF)
        h0 (show index ≤ ((ds_deque_grow d).size : Int) from hle) v
      rw [heq] at h
      simp only [Except.ok.injEq] at h
      exact h ▸ hWF2
    · obtain ⟨d2, heq, _, hWF2, _⟩ := insert_spec hWF (room_of_ne hWF hfull) h0 hle v
      rw [heq] at h
      simp only [Except.ok.injEq] at h
      exact h ▸ hWF2

theorem remove_ok_WF {d : DsDeque α} (hWF : WF d) {index : Int} {v : α} {d' : DsDeque α}
    (h : ds_deque_remove d index = .ok (v, d')) : WF d' := by
  by_cases hb : index < 0 ∨ (d.size : Int) ≤ index
  · rw [(remove_error_iff d index).mpr hb] at h
    exact absurd h (by simp)
  · obtain ⟨v2, d2, heq, _, _, hWF2, _⟩ :=
      @remove_spec α d hWF index (by omega) (by omega)
    rw [heq] at h
    simp only [Except.ok.injEq, Prod.mk.injEq] at h
    exact h.2 ▸ hWF2

/-! ### The traversal of DS_DEQUE_FOREACH -/

theorem foreachAux_stop {buffer : Nat → α} {tail mask h : Nat} (hht : h = tail) :
    ∀ fuel, foreachAux buffer tail mask fuel h = [] := by
  intro fuel
  cases fuel with
  | zero => rfl
  | succ f =>
    show (if h = tail then [] else _) = []
    rw [if_pos hht]

theorem foreachAux_eq {C : Nat} (hp : ∃ k, C = 2 ^ k) (hC : 0 < C) (buffer : Nat → α) :
    ∀ (size fuel h : Nat), h < C → size < C → size < fuel →
      foreachAux buffer ((h + size) % C) (C - 1) fuel h =
        (List.range size).map fun i => buffer ((h + i) % C) := by
  intro size
  induction size with
  | zero =>
    intro fuel h hh _ hf
    match fuel, hf with
    | f + 1, _ =>
      show (if h = (h + 0) % C then [] else _) = []
      rw [if_pos (by rw [Nat.add_zero, Nat.mod_eq_of_lt hh])]
  | succ size ih =>
    intro fuel h hh hsize hf
    match fuel, hf with
    | f + 1, hf =>
      have htailne : h ≠ (h + (size + 1)) % C := by
        intro e
        have e' : (h + 0) % C = (h + (size + 1)) % C := by
          rw [Nat.add_zero, Nat.mod_eq_of_lt hh]
          exact e
        have := slot_inj hC hC hsize e'
        omega
      show (if h = (h + (size + 1)) % C then []
            else buffer h ::
              foreachAux buffer ((h + (size + 1)) % C) (C - 1) f ((h + 1) &&& (C - 1))) = _
      rw [if_neg htailne, mask_eq_mod hp]
      have hh1 : (h + 1) % C < C := Nat.mod_lt _ hC
      have htail : (h + (size + 1)) % C = ((h + 1) % C + size) % C := by
        rw [Nat.mod_add_mod, show h + 1 + size = h + (size + 1) from by omega]
      rw [htail, ih f ((h + 1) % C) hh1 (by omega) (by omega)]
      rw [List.range_succ_eq_map, List.map_cons, List.map_map]
      congr 1
      · rw [Nat.add_zero, Nat.mod_eq_of_lt hh]
      · apply List.map_congr_left
        intro i hi
        show buffer (((h + 1) % C + i) % C) = buffer ((h + (i + 1)) % C)
        rw [slot_step0 (show h + 1 + i = h + (i + 1) from by omega)]

theorem foreach_eq_toList {d : DsDeque α} (hWF : WF d) (hlt : d.size < d.capacity) :
    dsDequeForeach d = toList d := by
  obtain ⟨hpow, hmin, hh, htl, hsz, hte⟩ := hWF
  have hp : ∃ k, d.capacity = 2 ^ k := ⟨_, hpow⟩
  have hmin' : 8 ≤ d.capacity := hmin
  have hC : 0 < d.capacity := by omega
  unfold dsDequeForeach
  rw [hte, foreachAux_eq hp hC d.buffer d.size d.capacity d.head hh hlt (by omega)]
  rw [toList_mod hp]

theorem foreach_full {d : DsDeque α} (hWF : WF d) (hfull : d.size = d.capacity) :
    d.head = d.tail ∧ dsDequeForeach d = [] := by
  obtain ⟨hpow, hmin, hh, htl, hsz, hte⟩ := hWF
  have hht : d.head = d.tail := by
    rw [hte, hfull, Nat.add_mod_right, Nat.mod_eq_of_lt hh]
  exact ⟨hht, foreachAux_stop hht d.capacity⟩

theorem head_eq_tail_iff {d : DsDeque α} (hWF : WF d) (hlt : d.size < d.capacity) :
    d.head = d.tail ↔ d.size = 0 := by
  obtain ⟨hpow, hmin, hh, htl, hsz, hte⟩ := hWF
  have hmin' : 8 ≤ d.capacity := hmin
  have hC : 0 < d.capacity := by omega
  constructor
  · intro e
    have e' : (d.head + 0) % d.capacity = (d.head + d.size) % d.capacity := by
      rw [Nat.add_zero, Nat.mod_eq_of_lt hh]
      exact e.trans hte
    have := slot_inj hC hC hlt e'
    omega
  · intro e
    rw [hte, e, Nat.add_zero, Nat.mod_eq_of_lt hh]

/-! ### Rotation -/

theorem rotateStepL_spec {d : DsDeque α} (hWF : WF d) (hne : d.size ≠ 0) :
    WF (rotateStepL d) ∧ (rotateStepL d).size = d.size ∧
      toList (rotateStepL d) = (toList d).rotate 1 := by
  obtain ⟨v, d1, heq, hlist, hWF1, hsz1, hcap1, hbuf1⟩ := shift_spec hWF hne
  have hstep : rotateStepL d = ds_deque_push d1 v := by
    unfold rotateStepL
    rw [heq]
  rw [hstep]
  refine ⟨WF_push hWF1 v, ?_, ?_⟩
  · rw [size_push, hsz1]
    omega
  · rw [toList_push hWF1 v, hlist, show (1 : Nat) = 0 + 1 from rfl,
      List.rotate_cons_succ, List.rotate_zero]

theorem rotateStepR_spec {d : DsDeque α} (hWF : WF d) (hne : d.size ≠ 0) :
    WF (rotateStepR d) ∧ (rotateStepR d).size = d.size ∧
      toList (rotateStepR d) = (toList d).rotate (d.size - 1) := by
  obtain ⟨v, d1, heq, hlist, hWF1, hsz1, hcap1, hhead1, hbuf1⟩ := pop_spec hWF hne
  have hstep : rotateStepR d = ds_deque_unshift d1 v := by
    unfold rotateStepR
    rw [heq]
  rw [hstep]
  refine ⟨WF_unshift hWF1 v, ?_, ?_⟩
  · rw [size_unshift, hsz1]
    omega
  · rw [toList_unshift hWF1 v, hlist]
    have hlen : (toList d1).length = d.size - 1 := by rw [toList_length, hsz1]
    rw [show d.size - 1 = (toList d1).length from hlen.symm]
    rw [List.rotate_eq_drop_append_take (by simp)]
    rw [List.drop_left, List.take_left]
    rfl

theorem rotateL_iter {d : DsDeque α} (hWF : WF d) (hne : d.size ≠ 0) (k : Nat) :
    WF (rotateStepL^[k] d) ∧ (rotateStepL^[k] d).size = d.size ∧
      toList (rotateStepL^[k] d) = (toList d).rotate k := by
  induction k with
  | zero => exact ⟨hWF, rfl, (List.rotate_zero _).symm⟩
  | succ k ih =>
    obtain ⟨hWFk, hszk, hlk⟩ := ih
    rw [Function.iterate_succ_apply']
    have hnek : (rotateStepL^[k] d).size ≠ 0 := by
      rw [hszk]
      exact hne
    obtain ⟨hWF', hsz', hl'⟩ := rotateStepL_spec hWFk hnek
    refine ⟨hWF', by rw [hsz', hszk], ?_⟩
    rw [hl', hlk, List.rotate_rotate]

theorem rotateR_iter {d : DsDeque α} (hWF : WF d) (hne : d.size ≠ 0) (k : Nat) :
    WF (rotateStepR^[k] d) ∧ (rotateStepR^[k] d).size = d.size ∧
      toList (rotateStepR^[k] d) = (toList d).rotate (k * (d.size - 1)) := by
  induction k with
  | zero => exact ⟨hWF, rfl, by rw [Function.iterate_zero_apply, Nat.zero_mul, List.rotate_zero]⟩
  | succ k ih =>
    obtain ⟨hWFk, hszk, hlk⟩ := ih
    rw [Function.iterate_succ_apply']
    have hnek : (rotateStepR^[k] d).size ≠ 0 := by
      rw [hszk]
      exact hne
    obtain ⟨hWF', hsz', hl'⟩ := rotateStepR_spec hWFk hnek
    refine ⟨hWF', by rw [hsz', hszk], ?_⟩
    rw [hl', hszk, hlk, List.rotate_rotate]
    congr 1
    ring

theorem rotate_eq_iterL {d : DsDeque α} (hz : d.size ≠ 0) {n : Int} (hn : 0 ≤ n) :
    ds_deque_rotate d n = rotateStepL^[(n % (d.size : Int)).toNat] d := by
  unfold ds_deque_rotate
  rw [if_neg hz, if_pos hn]

theorem rotate_eq_iterR {d : DsDeque α} (hz : d.size ≠ 0) {n : Int} (hn : n < 0) :
    ds_deque_rotate d n = rotateStepR^[((-n) % (d.size : Int)).toNat] d := by
  unfold ds_deque_rotate
  rw [if_neg hz, if_neg (by omega)]

theorem WF_rotate {d : DsDeque α} (hWF : WF d) (n : Int) : WF (ds_deque_rotate d n) := by
  by_cases hz : d.size = 0
  · unfold ds_deque_rotate
    rw [if_pos hz]
    exact hWF
  · by_cases hn : 0 ≤ n
    · rw [rotate_eq_iterL hz hn]
      exact (rotateL_iter hWF hz _).1
    · rw [rotate_eq_iterR hz (by omega)]
      exact (rotateR_iter hWF hz _).1

theorem mul_pred_add_self (b s : Nat) (hs : 1 ≤ s) : b * (s - 1) + b = b * s := by
  calc b * (s - 1) + b = b * (s - 1 + 1) := by ring
    _ = b * s := by rw [Nat.sub_add_cancel hs]

theorem rotate_round_trip {d : DsDeque α} (hWF : WF d) (hne : d.size ≠ 0) (n : Int) :
    toList (ds_deque_rotate (ds_deque_rotate d n) (-n)) = toList d := by
  have hs : 0 < d.size := Nat.pos_of_ne_zero hne
  rcases lt_trichotomy n 0 with hneg | h0 | hpos
  · rw [rotate_eq_iterR hne hneg]
    obtain ⟨hWF1, hsz1, hl1⟩ := rotateR_iter hWF hne (((-n) % (d.size : Int)).toNat)
    have hne1 : (rotateStepR^[((-n) % (d.size : Int)).toNat] d).size ≠ 0 := by
      rw [hsz1]
      exact hne
    rw [rotate_eq_iterL hne1 (by omega : (0 : Int) ≤ -n)]
    have hb' : ((-n) % (((rotateStepR^[((-n) % (d.size : Int)).toNat] d).size : Int))).toNat =
        ((-n) % (d.size : Int)).toNat := by rw [hsz1]
    rw [hb']
    obtain ⟨hWF2, hsz2, hl2⟩ := rotateL_iter hWF1 hne1 (((-n) % (d.size : Int)).toNat)
    rw [hl2, hl1, List.rotate_rotate,
      mul_pred_add_self (((-n) % (d.size : Int)).toNat) d.size hs,
      ← List.rotate_mod, toList_length, Nat.mul_mod_left, List.rotate_zero]
  · subst h0
    have hz0 : ((0 : Int) % (d.size : Int)).toNat = 0 := by simp
    rw [rotate_eq_iterL hne (le_refl 0), hz0, Function.iterate_zero_apply, neg_zero,
      rotate_eq_iterL hne (le_refl 0), hz0, Function.iterate_zero_apply]
  · rw [rotate_eq_iterL hne (by omega)]
    obtain ⟨hWF1, hsz1, hl1⟩ := rotateL_iter hWF hne ((n % (d.size : Int)).toNat)
    have hne1 : (rotateStepL^[(n % (d.size : Int)).toNat] d).size ≠ 0 := by
      rw [hsz1]
      exact hne
    rw [rotate_eq_iterR hne1 (by omega : -n < 0)]
    have hb' : ((-(-n)) % (((rotateStepL^[(n % (d.size : Int)).toNat] d).size : Int))).toNat =
        ((n % (d.size : Int))).toNat := by
      rw [hsz1, neg_neg]
    rw [hb']
    obtain ⟨hWF2, hsz2, hl2⟩ := rotateR_iter hWF1 hne1 ((n % (d.size : Int)).toNat)
    rw [hsz1] at hl2
    rw [hl2, hl1, List.rotate_rotate,
      show (n % (d.size : Int)).toNat + (n % (d.size : Int)).toNat * (d.size - 1) =
        (n % (d.size : Int)).toNat * (d.size - 1) + (n % (d.size : Int)).toNat from by omega,
      mul_pred_add_self ((n % (d.size : Int)).toNat) d.size hs,
      ← List.rotate_mod, toList_length, Nat.mul_mod_left, List.rotate_zero]

/-! ### Claim theorems -/

/-- C1: For every well-formed deque the capacity is a power of two and at
least `DS_DEQUE_MIN_CAPACITY` (8), the logical element at index `i`
(`0 ≤ i < size`) resides in physical slot `(head + i) & (capacity - 1)`, and
every operation preserves this addressing invariant (`WF` packages the
power-of-two capacity, the bounds of `head`/`tail`/`size` and the
head/tail/size relation that underlies the addressing map). -/
theorem claim_C1_capacity_addressing [Inhabited α] {d : DsDeque α} (hWF : WF d) (v : α)
    (l : List α) (index length n : Int) (cmp : α → α → Int) :
    (∃ k, d.capacity = 2 ^ k) ∧
    DS_DEQUE_MIN_CAPACITY ≤ d.capacity ∧
    (∀ i, i < d.size → (toList d).getD i default =
      d.buffer ((d.head + i) &&& (d.capacity - 1))) ∧
    WF (ds_deque_from_array l) ∧
    WF (ds_deque_grow d) ∧
    WF (ds_deque_push d v) ∧
    WF (ds_deque_unshift d v) ∧
    (∀ v' d', ds_deque_pop d = .ok (v', d') → WF d') ∧
    (∀ v' d', ds_deque_shift d = .ok (v', d') → WF d') ∧
    (∀ d', ds_deque_set d index v = .ok d' → WF d') ∧
    (∀ d', ds_deque_insert d index v = .ok d' → WF d') ∧
    (∀ v' d', ds_deque_remove d index = .ok (v', d') → WF d') ∧
    WF (ds_deque_slice d index length) ∧
    WF (ds_deque_rotate d n) ∧
    WF (ds_deque_sort d cmp) := by
  refine ⟨pow2_of_WF hWF, hWF.2.1, ?_, WF_from_array l, WF_grow hWF, WF_push hWF v,
    WF_unshift hWF v, fun v' d' h => pop_ok_WF hWF h, fun v' d' h => shift_ok_WF hWF h,
    fun d' h => set_ok_WF hWF h, fun d' h => insert_ok_WF hWF h,
    fun v' d' h => remove_ok_WF hWF h, WF_slice d index length, WF_rotate hWF n,
    WF_sort hWF cmp⟩
  intro i hi
  exact toList_getD d hi

theorem claim_C1_capacity_addressing_witness :
    ∃ k, (ds_deque_from_array ([1, 2, 3] : List Int)).capacity = 2 ^ k :=
  (claim_C1_capacity_addressing (d := ds_deque_from_array ([1, 2, 3] : List Int))
    (by decide) 9 [4, 5] 1 2 3 (fun a b => a - b)).1

/-- C2: `pop`, `shift`, `getFirst` and `getLast` fail with the
`EmptyContainer` error exactly when the size is 0; when the size is positive
they do not raise it and return the appropriate element (the last logical
element for `pop`/`getLast`, the first for `shift`/`getFirst`). -/
theorem claim_C2_empty_container {d : DsDeque α} (hWF : WF d) :
    (ds_deque_pop d = .error .emptyContainer ↔ d.size = 0) ∧
    (ds_deque_shift d = .error .emptyContainer ↔ d.size = 0) ∧
    (ds_deque_get_first d = .error .emptyContainer ↔ d.size = 0) ∧
    (ds_deque_get_last d = .error .emptyContainer ↔ d.size = 0) ∧
    (0 < d.size → ∃ v d', ds_deque_pop d = .ok (v, d') ∧ (toList d).getLast? = some v) ∧
    (0 < d.size → ∃ v d', ds_deque_shift d = .ok (v, d') ∧ (toList d).head? = some v) ∧
    (0 < d.size → ∃ v, ds_deque_get_first d = .ok v ∧ (toList d).head? = some v) ∧
    (0 < d.size → ∃ v, ds_deque_get_last d = .ok v ∧ (toList d).getLast? = some v) := by
  refine ⟨pop_error_iff d, shift_error_iff d, get_first_error_iff d, get_last_error_iff d,
    ?_, ?_, ?_, ?_⟩
  · intro hpos
    have hne : d.size ≠ 0 := by omega
    obtain ⟨v, d', heq, hlist, _⟩ := pop_spec hWF hne
    refine ⟨v, d', heq, ?_⟩
    rw [hlist]
    simp
  · intro hpos
    have hne : d.size ≠ 0 := by omega
    obtain ⟨v, d', heq, hlist, _⟩ := shift_spec hWF hne
    exact ⟨v, d', heq, by rw [hlist]; rfl⟩
  · intro hpos
    have hne : d.size ≠ 0 := by omega
    refine ⟨d.buffer ((d.head + 0) &&& (d.capacity - 1)), ?_, toList_head? hne⟩
    unfold ds_deque_get_first
    rw [if_neg hne]
  · intro hpos
    have hne : d.size ≠ 0 := by omega
    refine ⟨d.buffer ((d.head + (d.size - 1)) &&& (d.capacity - 1)), ?_, toList_getLast? hne⟩
    unfold ds_deque_get_last
    rw [if_neg hne]

theorem claim_C2_empty_container_witness :
    ds_deque_pop (ds_deque_from_array ([1, 2, 3] : List Int)) = .error .emptyContainer ↔
      (ds_deque_from_array ([1, 2, 3] : List Int)).size = 0 :=
  (claim_C2_empty_container (d := ds_deque_from_array ([1, 2, 3] : List Int)) (by decide)).1

/-- C3: `get`, `set` and `remove` fail with `IndexOutOfBounds` exactly when
the index falls outside `[0, size)`, and `insert` fails with
`IndexOutOfBounds` exactly when the index falls outside `[0, size]`.  In this
embedding a failing call produces only the error value and no deque, so the
deque is left unchanged by a failing call. -/
theorem claim_C3_index_out_of_bounds (d : DsDeque α) (index : Int) (v : α) :
    (ds_deque_get d index = .error .indexOutOfBounds ↔
      ¬ (0 ≤ index ∧ index < (d.size : Int))) ∧
    (ds_deque_set d index v = .error .indexOutOfBounds ↔
      ¬ (0 ≤ index ∧ index < (d.size : Int))) ∧
    (ds_deque_remove d index = .error .indexOutOfBounds ↔
      ¬ (0 ≤ index ∧ index < (d.size : Int))) ∧
    (ds_deque_insert d index v = .error .indexOutOfBounds ↔
      ¬ (0 ≤ index ∧ index ≤ (d.size : Int))) := by
  refine ⟨?_, ?_, ?_, ?_⟩
  · rw [get_error_iff]
    omega
  · rw [set_error_iff]
    omega
  · rw [remove_error_iff]
    omega
  · rw [insert_error_iff]
    omega

/-- C4 (counterexample to the claim as stated): the claim's "opens the gap by
shifting only the shorter side by one slot" fails on a reachable full deque:
inserting `99` at index 3 of the full deque holding `[1..8]` first doubles the
capacity, copying every element into a fresh buffer, so no result satisfies
the in-place shorter-side description (in particular the result's capacity is
16, not the source's 8, and its tail is not the source's tail). -/
theorem claim_C4_insert_counterexample :
    ¬ ∃ d', ds_deque_insert fullEight 3 99 = .ok d' ∧
        toList d' = (toList fullEight).take (3 : Int).toNat ++
          99 :: (toList fullEight).drop (3 : Int).toNat ∧
        WF d' ∧ d'.size = fullEight.size + 1 ∧ d'.capacity = fullEight.capacity ∧
        (2 * (3 : Int).toNat ≤ fullEight.size →
          d'.head = (fullEight.head + fullEight.capacity - 1) % fullEight.capacity ∧
          d'.tail = fullEight.tail ∧
          ∀ s, s < fullEight.capacity →
            (3 : Int).toNat < slotOffset fullEight.capacity d'.head s →
            d'.buffer s = fullEight.buffer s) ∧
        (fullEight.size < 2 * (3 : Int).toNat →
          d'.head = fullEight.head ∧
          d'.tail = (fullEight.tail + 1) % fullEight.capacity ∧
          ∀ s, s < fullEight.capacity →
            (slotOffset fullEight.capacity fullEight.head s < (3 : Int).toNat ∨
              fullEight.size < slotOffset fullEight.capacity fullEight.head s) →
            d'.buffer s = fullEight.buffer s) := by
  rintro ⟨d', heq, -, -, -, hcap, -, -⟩
  have h16 : exceptCapacity (ds_deque_insert fullEight 3 99) = 16 := by decide
  rw [heq] at h16
  have hc : d'.capacity = 16 := h16
  rw [hcap] at hc
  exact absurd hc (by decide)

/-- C4 (amended): for every well-formed deque and every `0 ≤ index ≤ size`,
`insert` succeeds, places the value at the logical index (`index = size`
behaving like a push) and preserves the relative order and values of all
pre-existing elements.  When the deque has spare room the capacity is kept and
the gap is opened by shifting only the shorter side by one slot — the head
retreats with every slot past the gap untouched, or the tail advances with
every slot outside the moved suffix untouched.  When the deque is full the
buffer is first reallocated at double capacity, moving every element, and the
gap is then opened by shifting only the shorter side of the grown copy. -/
theorem claim_C4_insert {d : DsDeque α} (hWF : WF d)
    {index : Int} (h0 : 0 ≤ index) (hle : index ≤ (d.size : Int)) (v : α) :
    ∃ d', ds_deque_insert d index v = .ok d' ∧
      toList d' = (toList d).take index.toNat ++ v :: (toList d).drop index.toNat ∧
      WF d' ∧ d'.size = d.size + 1 ∧
      (d.size < d.capacity →
        d'.capacity = d.capacity ∧
        (2 * index.toNat ≤ d.size →
          d'.head = (d.head + d.capacity - 1) % d.capacity ∧ d'.tail = d.tail ∧
          ∀ s, s < d.capacity → index.toNat < slotOffset d.capacity d'.head s →
            d'.buffer s = d.buffer s) ∧
        (d.size < 2 * index.toNat →
          d'.head = d.head ∧ d'.tail = (d.tail + 1) % d.capacity ∧
          ∀ s, s < d.capacity →
            (slotOffset d.capacity d.head s < index.toNat ∨
              d.size < slotOffset d.capacity d.head s) →
            d'.buffer s = d.buffer s)) ∧
      (d.size = d.capacity →
        d'.capacity = 2 * d.capacity ∧
        (2 * index.toNat ≤ d.size →
          d'.head = ((ds_deque_grow d).head + (ds_deque_grow d).capacity - 1) %
            (ds_deque_grow d).capacity ∧
          d'.tail = (ds_deque_grow d).tail ∧
          ∀ s, s < (ds_deque_grow d).capacity →
            index.toNat < slotOffset (ds_deque_grow d).capacity d'.head s →
            d'.buffer s = (ds_deque_grow d).buffer s) ∧
        (d.size < 2 * index.toNat →
          d'.head = (ds_deque_grow d).head ∧
          d'.tail = ((ds_deque_grow d).tail + 1) % (ds_deque_grow d).capacity ∧
          ∀ s, s < (ds_deque_grow d).capacity →
            (slotOffset (ds_deque_grow d).capacity (ds_deque_grow d).head s < index.toNat ∨
              (ds_deque_grow d).size <
                slotOffset (ds_deque_grow d).capacity (ds_deque_grow d).head s) →
            d'.buffer s = (ds_deque_grow d).buffer s)) := by
  by_cases hfull : d.size = d.capacity
  · obtain ⟨d', heq, hlist, hWF', hsz, hcap, hA, hB⟩ :=
      insert_spec (WF_grow hWF) (grow_room hWF) h0
        (show index ≤ ((ds_deque_grow d).size : Int) from hle) v
    refine ⟨d', ?_, ?_, hWF', hsz, fun hroom => absurd hfull (by omega),
      fun _ => ⟨hcap, hA, hB⟩⟩
    · rw [insert_full_eq hWF hfull]
      exact heq
    · rw [hlist, toList_grow hWF]
  · obtain ⟨d', heq, hlist, hWF', hsz, hcap, hA, hB⟩ :=
      insert_spec hWF (room_of_ne hWF hfull) h0 hle v
    exact ⟨d', heq, hlist, hWF', hsz, fun _ => ⟨hcap, hA, hB⟩, fun h => absurd h hfull⟩

theorem claim_C4_insert_witness :
    ∃ d', ds_deque_insert exThree 1 9 = .ok d' ∧
      toList d' = (toList exThree).take 1 ++ 9 :: (toList exThree).drop 1 ∧
      WF d' ∧ d'.size = exThree.size + 1 ∧
      (exThree.size < exThree.capacity →
        d'.capacity = exThree.capacity ∧
        (2 * 1 ≤ exThree.size →
          d'.head = (exThree.head + exThree.capacity - 1) % exThree.capacity ∧
          d'.tail = exThree.tail ∧
          ∀ s, s < exThree.capacity → 1 < slotOffset exThree.capacity d'.head s →
            d'.buffer s = exThree.buffer s) ∧
        (exThree.size < 2 * 1 →
          d'.head = exThree.head ∧ d'.tail = (exThree.tail + 1) % exThree.capacity ∧
          ∀ s, s < exThree.capacity →
            (slotOffset exThree.capacity exThree.head s < 1 ∨
              exThree.size < slotOffset exThree.capacity exThree.head s) →
            d'.buffer s = exThree.buffer s)) ∧
      (exThree.size = exThree.capacity →
        d'.capacity = 2 * exThree.capacity ∧
        (2 * 1 ≤ exThree.size →
          d'.head = ((ds_deque_grow exThree).head + (ds_deque_grow exThree).capacity - 1) %
            (ds_deque_grow exThree).capacity ∧
          d'.tail = (ds_deque_grow exThree).tail ∧
          ∀ s, s < (ds_deque_grow exThree).capacity →
            1 < slotOffset (ds_deque_grow exThree).capacity d'.head s →
            d'.buffer s = (ds_deque_grow exThree).buffer s) ∧
        (exThree.size < 2 * 1 →
          d'.head = (ds_deque_grow exThree).head ∧
          d'.tail = ((ds_deque_grow exThree).tail + 1) % (ds_deque_grow exThree).capacity ∧
          ∀ s, s < (ds_deque_grow exThree).capacity →
            (slotOffset (ds_deque_grow exThree).capacity (ds_deque_grow exThree).head s < 1 ∨
              (ds_deque_grow exThree).size <
                slotOffset (ds_deque_grow exThree).capacity (ds_deque_grow exThree).head s) →
            d'.buffer s = (ds_deque_grow exThree).buffer s)) :=
  claim_C4_insert (d := exThree) (by decide) (by decide) (by decide) 9

/-- C5: `toArray` produces the logical contents in head-to-tail order without
mutating the deque (it is a pure function of the deque), and rebuilding a
deque from the produced array yields a well-formed deque with identical
logical content and order. -/
theorem claim_C5_to_array_round_trip [Inhabited α] (d : DsDeque α) :
    ds_deque_to_array d = toList d ∧
    toList (ds_deque_from_array (ds_deque_to_array d)) = toList d ∧
    WF (ds_deque_from_array (ds_deque_to_array d)) :=
  ⟨rfl, toList_from_array _, WF_from_array _⟩

/-- C6: after `sort` with a transitive, total comparator, every adjacent pair
of the result satisfies the comparator's non-decreasing relation; sorting an
already-sorted sequence produces identical output, and sorting is idempotent. -/
theorem claim_C6_sort [Inhabited α] {d : DsDeque α} (hWF : WF d) (cmp : α → α → Int)
    (htrans : ∀ a b c, cmp a b ≤ 0 → cmp b c ≤ 0 → cmp a c ≤ 0)
    (htotal : ∀ a b, cmp a b ≤ 0 ∨ cmp b a ≤ 0) :
    List.Chain' (fun a b => cmp a b ≤ 0) (toList (ds_deque_sort d cmp)) ∧
    (List.Chain' (fun a b => cmp a b ≤ 0) (toList d) →
      toList (ds_deque_sort d cmp) = toList d) ∧
    toList (ds_deque_sort (ds_deque_sort d cmp) cmp) = toList (ds_deque_sort d cmp) := by
  have htransB : ∀ (a b c : α), decide (cmp a b ≤ 0) = true → decide (cmp b c ≤ 0) = true →
      decide (cmp a c ≤ 0) = true := by
    intro a b c h1 h2
    simp only [decide_eq_true_eq] at *
    exact htrans a b c h1 h2
  have htotalB : ∀ (a b : α), (decide (cmp a b ≤ 0) || decide (cmp b a ≤ 0)) = true := by
    intro a b
    simp only [Bool.or_eq_true, decide_eq_true_eq]
    exact htotal a b
  have hpair := List.sorted_mergeSort htransB htotalB (toList d)
  have hpairP : (List.mergeSort (toList d) fun a b => decide (cmp a b ≤ 0)).Pairwise
      (fun a b => cmp a b ≤ 0) := hpair.imp (fun h => by simpa using h)
  refine ⟨?_, ?_, ?_⟩
  · rw [toList_sort hWF]
    exact hpairP.chain'
  · intro hsorted
    rw [toList_sort hWF]
    haveI : IsTrans α (fun a b => cmp a b ≤ 0) := ⟨htrans⟩
    have hpw : (toList d).Pairwise (fun a b => cmp a b ≤ 0) :=
      List.chain'_iff_pairwise.mp hsorted
    have hpwB : (toList d).Pairwise (fun a b => decide (cmp a b ≤ 0) = true) :=
      hpw.imp (fun h => by simpa using h)
    exact List.mergeSort_of_sorted hpwB
  · rw [toList_sort (WF_sort hWF cmp) cmp, toList_sort hWF cmp]
    exact List.mergeSort_of_sorted hpair

theorem claim_C6_sort_witness :
    List.Chain' (fun a b : Int => a - b ≤ 0)
      (toList (ds_deque_sort (ds_deque_from_array ([3, 1, 2] : List Int))
        (fun a b => a - b))) :=
  (claim_C6_sort (d := ds_deque_from_array ([3, 1, 2] : List Int)) (by decide)
    (fun a b => a - b)
    (fun a b c h1 h2 => by
      have h1' : a - b ≤ 0 := h1
      have h2' : b - c ≤ 0 := h2
      show a - c ≤ 0
      omega)
    (fun a b => by
      show a - b ≤ 0 ∨ b - a ≤ 0
      omega)).1

/-- C7: on a non-empty deque, `rotate n` followed by `rotate (-n)` restores
the original logical order for every integer `n`; `rotate` performs net
`n mod size` effective single-step moves (shift+push forward, pop+unshift
backward), and it is a no-op on an empty deque. -/
theorem claim_C7_rotate {d : DsDeque α} (hWF : WF d) :
    (d.size ≠ 0 → ∀ n : Int,
      toList (ds_deque_rotate (ds_deque_rotate d n) (-n)) = toList d) ∧
    (d.size = 0 → ∀ n : Int, ds_deque_rotate d n = d) ∧
    (d.size ≠ 0 → ∀ n : Int, 0 ≤ n →
      ds_deque_rotate d n = rotateStepL^[(n % (d.size : Int)).toNat] d) ∧
    (d.size ≠ 0 → ∀ n : Int, n < 0 →
      ds_deque_rotate d n = rotateStepR^[((-n) % (d.size : Int)).toNat] d) := by
  refine ⟨fun hne n => rotate_round_trip hWF hne n, ?_,
    fun hne n hn => rotate_eq_iterL hne hn, fun hne n hn => rotate_eq_iterR hne hn⟩
  intro hz n
  unfold ds_deque_rotate
  rw [if_pos hz]

theorem claim_C7_rotate_witness :
    toList (ds_deque_rotate
      (ds_deque_rotate (ds_deque_from_array ([1, 2, 3, 4, 5] : List Int)) 7) (-7)) =
      toList (ds_deque_from_array ([1, 2, 3, 4, 5] : List Int)) :=
  (claim_C7_rotate (d := ds_deque_from_array ([1, 2, 3, 4, 5] : List Int))
    (by decide)).1 (by decide) 7

/-- C8: `slice(index, length)` returns a new deque whose logical contents are
the clamped window of the source's logical contents — `sliceStart` resolves a
negative index from the end of the sequence and clamps an out-of-range start
to `[0, size]`, `sliceLen` resolves a negative length as excluding that many
trailing elements and clamps to the available elements — while the source
deque is not mutated (slicing is a pure function of the source).  In
particular, slicing `[1,2,3,4,5]` with index `-2` and length `1` yields
`[4]`. -/
theorem claim_C8_slice [Inhabited α] (d : DsDeque α) (index length : Int) :
    toList (ds_deque_slice d index length) =
      ((toList d).drop (sliceStart d.size index)).take
        (sliceLen d.size (sliceStart d.size index) length) ∧
    toList (ds_deque_slice (ds_deque_from_array ([1, 2, 3, 4, 5] : List Int)) (-2) 1) =
      [4] :=
  ⟨toList_slice d index length, by decide⟩

/-- C9 (amended): operations keep `size ≤ capacity`, but a full state with
`size = capacity` is reachable under the spec's growth policy; whenever
`size < capacity`, `head = tail` holds exactly when the deque is empty and the
`DS_DEQUE_FOREACH` traversal visits exactly the `size` logical elements in
head-to-tail order, while in a full state `head = tail` and the traversal
visits nothing. -/
theorem claim_C9_foreach_amended {d : DsDeque α} (hWF : WF d) :
    d.size ≤ d.capacity ∧
    (d.size < d.capacity → ((d.head = d.tail ↔ d.size = 0) ∧ dsDequeForeach d = toList d)) ∧
    (d.size = d.capacity → (d.head = d.tail ∧ dsDequeForeach d = [])) :=
  ⟨hWF.2.2.2.2.1,
   fun hlt => ⟨head_eq_tail_iff hWF hlt, foreach_eq_toList hWF hlt⟩,
   fun hfull => foreach_full hWF hfull⟩

theorem claim_C9_foreach_amended_witness :
    (ds_deque_from_array ([1, 2, 3] : List Int)).size ≤
      (ds_deque_from_array ([1, 2, 3] : List Int)).capacity :=
  (claim_C9_foreach_amended (d := ds_deque_from_array ([1, 2, 3] : List Int)) (by decide)).1

/-- C9 (counterexample to the claim as stated): pushing 8 values onto a
freshly-allocated empty deque (capacity `DS_DEQUE_MIN_CAPACITY = 8`) reaches
a reachable, well-formed state whose size equals its capacity — not strictly
below it — with `head = tail`, and the `DS_DEQUE_FOREACH` traversal visits
none of its 8 logical elements. -/
theorem claim_C9_counterexample :
    (List.foldl ds_deque_push (ds_deque_from_array ([] : List Int))
        [1, 2, 3, 4, 5, 6, 7, 8]).size =
      (List.foldl ds_deque_push (ds_deque_from_array ([] : List Int))
        [1, 2, 3, 4, 5, 6, 7, 8]).capacity ∧
    WF (List.foldl ds_deque_push (ds_deque_from_array ([] : List Int))
      [1, 2, 3, 4, 5, 6, 7, 8]) ∧
    (List.foldl ds_deque_push (ds_deque_from_array ([] : List Int))
        [1, 2, 3, 4, 5, 6, 7, 8]).head =
      (List.foldl ds_deque_push (ds_deque_from_array ([] : List Int))
        [1, 2, 3, 4, 5, 6, 7, 8]).tail ∧
    dsDequeForeach (List.foldl ds_deque_push (ds_deque_from_array ([] : List Int))
      [1, 2, 3, 4, 5, 6, 7, 8]) = [] ∧
    toList (List.foldl ds_deque_push (ds_deque_from_array ([] : List Int))
      [1, 2, 3, 4, 5, 6, 7, 8]) = [1, 2, 3, 4, 5, 6, 7, 8] := by
  decide

/-- C10: the emptiness test `DS_DEQUE_IS_EMPTY` returns true exactly when
`DS_DEQUE_SIZE` is zero — emptiness is decided solely by the `size` field —
and it is never true while any logical element remains. -/
theorem claim_C10_is_empty (d : DsDeque α) :
    (DS_DEQUE_IS_EMPTY d = true ↔ DS_DEQUE_SIZE d = 0) ∧
    (DS_DEQUE_IS_EMPTY d = true ↔ toList d = []) := by
  constructor
  · simp [DS_DEQUE_IS_EMPTY, DS_DEQUE_SIZE]
  · rw [toList_eq_nil_iff]
    simp [DS_DEQUE_IS_EMPTY]

end ExtDs
